import Mathlib

/-!
# Verification of the FEM engine of `pepperoni-reinforcement` (`_FEM.py`)

A shallow embedding of `_FEM.py` (functions `_ccw`, `_membershiptest`, `_FEM`)
into Lean 4, together with theorems settling the frozen claims about the
natural-language specification of that file.

Modelling conventions:
* Python/NumPy floating-point numbers are modelled as exact rationals (`ℚ`).
  Sign tests (`det > 0`) and equality tests (`Edges[i][0] == 1`) are therefore
  exact.
* NumPy arrays are modelled as Lean lists; `np.delete` is `List.eraseIdx`,
  `np.sort` is insertion sort, `np.unique` is sort-then-`dedup`.
* Fallible NumPy operations are modelled with `Option`: `np.max` of an empty
  array raises `ValueError` (modelled as `none`), and `np.linalg.inv` of an
  exactly singular matrix raises `LinAlgError` (modelled as `none`).
-/

set_option maxRecDepth 8000000

-- `Rat.add` and friends are `@[irreducible]` in Batteries, which blocks
-- kernel evaluation of concrete rational arithmetic; the attribute change is
-- sound (the kernel ignores reducibility) and only re-enables `decide`.
set_option allowUnsafeReducibility true in
attribute [semireducible] Rat.add Rat.mul Rat.inv Rat.sub Rat.div Rat.neg
  Rat.ofScientific

namespace FEMpy

/-! ## Geometry: `_ccw` and `_membershiptest` -/

/-- One row of the `Edges` array. `_membershiptest` reads fields `0..4`:
activity flag, then the two endpoints `(x1, y1)`, `(x2, y2)` in design-space
coordinates. -/
structure Edge where
  act : ℚ
  x1 : ℚ
  y1 : ℚ
  x2 : ℚ
  y2 : ℚ
deriving DecidableEq, Repr

/-- The 3×3 determinant `det [[ax, bx, cx], [ay, by, cy], [1, 1, 1]]`
computed by `_ccw` (expanded along the first row). -/
def det3 (a b c : ℚ × ℚ) : ℚ :=
  a.1 * (b.2 - c.2) - b.1 * (a.2 - c.2) + c.1 * (a.2 - b.2)

/-- `_ccw(ax, ay, bx, by, cx, cy)`: `True` iff the determinant is `> 0`
(collinear triples give `False`). -/
def ccw (a b c : ℚ × ℚ) : Bool :=
  decide (0 < det3 a b c)

/-- The segment-crossing test used in `_membershiptest`:
`ccw(a,b,c) != ccw(a,b,d) and ccw(c,d,a) != ccw(c,d,b)`. -/
def segCross (a b c d : ℚ × ℚ) : Bool :=
  (ccw a b c != ccw a b d) && (ccw c d a != ccw c d b)

/-- The fixed distant ray endpoint `(bigNumberx, bigNumbery) = (1, 30)`. -/
def bigPoint : ℚ × ℚ := (1, 30)

/-- First endpoint of edge `E`, scaled into grid-index units:
`(0.05 * nelx * E.x1, 0.1 * nely * E.y1)`. -/
def scaled1 (nely nelx : ℕ) (E : Edge) : ℚ × ℚ :=
  ((1/20) * (nelx : ℚ) * E.x1, (1/10) * (nely : ℚ) * E.y1)

/-- Second endpoint of edge `E`, scaled into grid-index units. -/
def scaled2 (nely nelx : ℕ) (E : Edge) : ℚ × ℚ :=
  ((1/20) * (nelx : ℚ) * E.x2, (1/10) * (nely : ℚ) * E.y2)

/-- Loop body of `_membershiptest`: edge `E` contributes to `crossNumber`
iff its activity flag equals `1` and the scaled segment crosses the ray
from `(px, py)` to `(1, 30)`. -/
def edgeHit (px py : ℚ) (nely nelx : ℕ) (E : Edge) : Bool :=
  (E.act == 1) &&
    segCross bigPoint (px, py) (scaled1 nely nelx E) (scaled2 nely nelx E)

/-- The `crossNumber` accumulated by `_membershiptest`. -/
def crossNumber (px py : ℚ) (Edges : List Edge) (nely nelx : ℕ) : ℕ :=
  Edges.countP (edgeHit px py nely nelx)

/-- `_membershiptest(px, py, Edges, nely, nelx)`: `True` iff `crossNumber`
is odd. -/
def membershiptest (px py : ℚ) (Edges : List Edge) (nely nelx : ℕ) : Bool :=
  crossNumber px py Edges nely nelx % 2 == 1

/-! ## Mesh classification (`_FEM` lines 65–76) -/

/-- Cell `(ely, elx)` of the grid is tested at the representative point
`(elx + 1, nely - ely - 1)`. -/
def isVoidCell (Edges : List Edge) (nely nelx ely elx : ℕ) : Bool :=
  membershiptest ((elx : ℚ) + 1) ((nely : ℚ) - (ely : ℚ) - 1) Edges nely nelx

/-- The grid `x`: `np.ones([nely, nelx])` with `x[ely][elx] = 0` for cells
classified void. -/
def gridX (Edges : List Edge) (nely nelx : ℕ) : List (List ℚ) :=
  (List.range nely).map fun ely =>
    (List.range nelx).map fun elx =>
      if isVoidCell Edges nely nelx ely elx then 0 else 1

/-- The list `e` of 1-based void element indices `elx*nely + ely + 1`,
in the order the double loop appends them. -/
def voidRaw (Edges : List Edge) (nely nelx : ℕ) : List ℕ :=
  (List.range nely).flatMap fun ely =>
    (List.range nelx).filterMap fun elx =>
      if isVoidCell Edges nely nelx ely elx then some (elx * nely + ely + 1)
      else none

/-- `e = np.unique(np.sort(e))`: sorted ascending, duplicate-free. -/
def voidList (Edges : List Edge) (nely nelx : ℕ) : List ℕ :=
  ((voidRaw Edges nely nelx).insertionSort (· ≤ ·)).dedup

/-! ### Basic facts about `voidList` -/

theorem voidList_sorted (Edges : List Edge) (nely nelx : ℕ) :
    (voidList Edges nely nelx).Sorted (· ≤ ·) := by
  have h := List.sorted_insertionSort (· ≤ ·) (voidRaw Edges nely nelx)
  exact h.sublist (List.dedup_sublist _)

theorem voidList_nodup (Edges : List Edge) (nely nelx : ℕ) :
    (voidList Edges nely nelx).Nodup :=
  List.nodup_dedup _

theorem mem_voidList_iff (Edges : List Edge) (nely nelx v : ℕ) :
    v ∈ voidList Edges nely nelx ↔
      ∃ ely < nely, ∃ elx < nelx,
        isVoidCell Edges nely nelx ely elx = true ∧ v = elx * nely + ely + 1 := by
  unfold voidList voidRaw
  rw [List.mem_dedup, (List.perm_insertionSort (· ≤ ·) _).mem_iff]
  simp only [List.mem_flatMap, List.mem_filterMap, List.mem_range]
  constructor
  · rintro ⟨ely, hely, elx, helx, h⟩
    split at h
    · exact ⟨ely, hely, elx, helx, by assumption, (Option.some_inj.mp h).symm⟩
    · exact absurd h (by simp)
  · rintro ⟨ely, hely, elx, helx, hvoid, rfl⟩
    exact ⟨ely, hely, elx, helx, by rw [hvoid]; simp⟩

/-! ## Element stiffness template `KE` (`_FEM` lines 78–92) -/

def A11 : List (List ℚ) := [[12,3,-6,-3],[3,12,3,0],[-6,3,12,-3],[-3,0,-3,12]]
def A12 : List (List ℚ) := [[-6,-3,0,3],[-3,-6,-3,-6],[0,-3,-6,3],[3,-6,3,-6]]
def B11 : List (List ℚ) := [[-4,3,-2,9],[3,-4,-9,4],[-2,-9,-4,-3],[9,4,-3,-4]]
def B12 : List (List ℚ) := [[2,-3,4,-9],[-3,2,9,-2],[4,9,2,3],[-9,-2,3,2]]

/-- `A = [[A11, A12], [A12ᵗ, A11]]` assembled by `np.concatenate`. -/
def Amat : List (List ℚ) :=
  (A11.zipWith (· ++ ·) A12) ++ (A12.transpose.zipWith (· ++ ·) A11)

/-- `B = [[B11, B12], [B12ᵗ, B11]]`. -/
def Bmat : List (List ℚ) :=
  (B11.zipWith (· ++ ·) B12) ++ (B12.transpose.zipWith (· ++ ·) B11)

/-- `KE = (1/(0.91*24)) * (A + nu*B)` with `nu = 0.3`. -/
def KE : List (List ℚ) :=
  Amat.zipWith (List.zipWith (fun p q => (1 / ((91/100) * 24)) * (p + (3/10) * q))) Bmat

/-- Entry access `KE[j][i]`. -/
def KEv (j i : ℕ) : ℚ := (KE.getD j []).getD i 0

/-- `E0 = 2e6`. -/
def E0 : ℚ := 2000000

/-! ## DOF mapping (`_FEM` lines 93–109) -/

/-- `nodenrs[r][c] = c*(nely+1) + r + 1`: column-major 1-based node ids on the
`(nely+1) × (nelx+1)` node grid (transpose of the row-major `reshape`). -/
def nodenr (nely r c : ℕ) : ℕ := c * (nely + 1) + r + 1

/-- `2*b + 1` flattened row-major over the top-left `nely × nelx` block of
`nodenrs`, before sorting. -/
def edofVecRaw (nely nelx : ℕ) : List ℕ :=
  (List.range nely).flatMap fun r =>
    (List.range nelx).map fun c => 2 * nodenr nely r c + 1

/-- `edofVec = np.sort(...)`. -/
def edofVec (nely nelx : ℕ) : List ℕ :=
  (edofVecRaw nely nelx).insertionSort (· ≤ ·)

/-- Closed form of the sorted `edofVec`: entry `el` (0-based column-major
element index, `el = elx*nely + ely`) is `2*nodenr(ely, elx) + 1
= 2*(el + el/nely) + 3`. -/
def edofBase (nely el : ℕ) : ℕ := 2 * (el + el / nely) + 3

def edofVecCM (nely nelx : ℕ) : List ℕ :=
  (List.range (nelx * nely)).map (edofBase nely)

/-- The fixed offset row `[0, 1, 2*nely+2, 2*nely+3, 2*nely, 2*nely+1, -2, -1]`
added to the element's base DOF (`base ≥ 3`, so the subtractions stay in `ℕ`). -/
def edofTuple (nely base : ℕ) : List ℕ :=
  [base, base + 1, base + (2*nely+2), base + (2*nely+3),
   base + 2*nely, base + (2*nely+1), base - 2, base - 1]

/-- `edofMat`, all `nelx*nely` rows (before void-row deletion). -/
def edofMatFull (nely nelx : ℕ) : List (List ℕ) :=
  (edofVec nely nelx).map (edofTuple nely)

/-! ### `edofVec` sorted-closed-form lemma -/

lemma nodenr_inj {nely r1 c1 r2 c2 : ℕ} (h1 : r1 < nely + 1) (h2 : r2 < nely + 1)
    (h : nodenr nely r1 c1 = nodenr nely r2 c2) : r1 = r2 ∧ c1 = c2 := by
  unfold nodenr at h
  have h' : c1 * (nely + 1) + r1 = c2 * (nely + 1) + r2 := by omega
  have hc : c1 = c2 := by
    have e1 : (c1 * (nely + 1) + r1) / (nely + 1) = c1 := by
      rw [Nat.mul_comm c1, Nat.mul_add_div (Nat.succ_pos nely), Nat.div_eq_of_lt h1]; omega
    have e2 : (c2 * (nely + 1) + r2) / (nely + 1) = c2 := by
      rw [Nat.mul_comm c2, Nat.mul_add_div (Nat.succ_pos nely), Nat.div_eq_of_lt h2]; omega
    rw [← e1, ← e2, h']
  subst hc
  exact ⟨by omega, rfl⟩

lemma edofBase_strictMono (nely : ℕ) : StrictMono (edofBase nely) := by
  intro a b hab
  unfold edofBase
  have : a / nely ≤ b / nely := Nat.div_le_div_right (Nat.le_of_lt hab)
  omega

lemma mem_edofVecRaw {nely nelx v : ℕ} :
    v ∈ edofVecRaw nely nelx ↔
      ∃ r < nely, ∃ c < nelx, v = 2 * nodenr nely r c + 1 := by
  unfold edofVecRaw
  simp only [List.mem_flatMap, List.mem_map, List.mem_range]
  constructor
  · rintro ⟨r, hr, c, hc, rfl⟩; exact ⟨r, hr, c, hc, rfl⟩
  · rintro ⟨r, hr, c, hc, rfl⟩; exact ⟨r, hr, c, hc, rfl⟩

lemma mem_edofVecCM {nely nelx v : ℕ} (hy : 0 < nely) :
    v ∈ edofVecCM nely nelx ↔
      ∃ r < nely, ∃ c < nelx, v = 2 * nodenr nely r c + 1 := by
  unfold edofVecCM
  simp only [List.mem_map, List.mem_range]
  constructor
  · rintro ⟨el, hel, rfl⟩
    refine ⟨el % nely, Nat.mod_lt _ hy, el / nely, ?_, ?_⟩
    · exact Nat.div_lt_of_lt_mul (by rw [Nat.mul_comm] at hel; exact hel)
    · unfold edofBase nodenr
      have h1 : nely * (el / nely) + el % nely = el := Nat.div_add_mod el nely
      have h2 : el / nely * (nely + 1) = nely * (el / nely) + el / nely := by ring
      omega
  · rintro ⟨r, hr, c, hc, rfl⟩
    refine ⟨c * nely + r, ?_, ?_⟩
    · calc c * nely + r < c * nely + nely := by omega
        _ = (c + 1) * nely := by ring
        _ ≤ nelx * nely := Nat.mul_le_mul_right _ hc
    · unfold edofBase nodenr
      have hdiv : (c * nely + r) / nely = c := by
        rw [Nat.mul_comm c, Nat.mul_add_div hy, Nat.div_eq_of_lt hr]; omega
      have h2 : c * (nely + 1) = c * nely + c := by ring
      omega

lemma nodup_edofVecRaw (nely nelx : ℕ) : (edofVecRaw nely nelx).Nodup := by
  unfold edofVecRaw
  rw [List.nodup_flatMap]
  constructor
  · intro r hr
    rw [List.mem_range] at hr
    refine List.Nodup.map ?_ (List.nodup_range _)
    intro c1 c2 h
    have hβ : 2 * nodenr nely r c1 + 1 = 2 * nodenr nely r c2 + 1 := h
    have h' : nodenr nely r c1 = nodenr nely r c2 := by omega
    exact (nodenr_inj (Nat.lt_succ_of_lt hr) (Nat.lt_succ_of_lt hr) h').2
  · refine (List.pairwise_lt_range _).imp_of_mem ?_
    intro r1 r2 hm1 hm2 hlt
    rw [List.mem_range] at hm1 hm2
    rw [Function.onFun, List.disjoint_left]
    rintro v hv1 hv2
    rw [List.mem_map] at hv1 hv2
    obtain ⟨c1, _, hc1⟩ := hv1
    obtain ⟨c2, _, hc2⟩ := hv2
    rw [← hc1] at hc2
    have hβ : 2 * nodenr nely r2 c2 + 1 = 2 * nodenr nely r1 c1 + 1 := hc2
    have h' : nodenr nely r2 c2 = nodenr nely r1 c1 := by omega
    exact absurd (nodenr_inj (Nat.lt_succ_of_lt hm2) (Nat.lt_succ_of_lt hm1) h').1 (by omega)

lemma nodup_edofVecCM (nely nelx : ℕ) : (edofVecCM nely nelx).Nodup :=
  (List.nodup_range _).map (edofBase_strictMono nely).injective

/-- The sorted `edofVec` equals its column-major closed form. -/
lemma edofVec_eq_CM (nely nelx : ℕ) (hy : 0 < nely) :
    edofVec nely nelx = edofVecCM nely nelx := by
  refine List.eq_of_perm_of_sorted ?_ (List.sorted_insertionSort _ _) ?_
  · refine ((List.perm_insertionSort _ _).trans ?_)
    refine List.perm_of_nodup_nodup_toFinset_eq (nodup_edofVecRaw _ _)
      (nodup_edofVecCM _ _) ?_
    ext v
    rw [List.mem_toFinset, List.mem_toFinset, mem_edofVecRaw, mem_edofVecCM hy]
  · unfold edofVecCM
    exact List.Pairwise.map _ (fun a b h => (edofBase_strictMono nely h).le)
      (List.pairwise_lt_range _)

/-! ## Assembly triplets (`_FEM` lines 111–126) -/

/-- One 64-entry block of `iK`: `np.kron(edofMat, np.ones([8,1]))` reshaped
row-major gives `iK[64*el + 8*i + j] = edofMat[el][j]`, i.e. each row
repeated 8 times. -/
def iKblock (row : List ℕ) : List ℕ :=
  (List.range 8).flatMap fun _ => row

/-- One 64-entry block of `jK`: `np.kron(edofMat, np.ones([1,8]))` gives
`jK[64*el + 8*i + j] = edofMat[el][i]`, i.e. each entry repeated 8 times. -/
def jKblock (row : List ℕ) : List ℕ :=
  row.flatMap fun v => List.replicate 8 v

/-- `KE1 = np.reshape(np.transpose(KE), (64, 1))`: `KE1[8*i + j] = KE[j][i]`. -/
def KE1flat : List ℚ :=
  (List.range 8).flatMap fun i => (List.range 8).map fun j => KEv j i

/-- `xT = np.multiply(np.reshape(np.transpose(x), (1, nelx*nely)), E0)`:
the grid flattened column-major (transpose, then row-major reshape), each
entry scaled by `E0`. -/
def xTE (Edges : List Edge) (nely nelx : ℕ) : List ℚ :=
  ((List.range nelx).flatMap fun elx =>
    (List.range nely).map fun ely =>
      ((gridX Edges nely nelx).getD ely []).getD elx 0).map (· * E0)

/-- `sK = np.reshape(np.transpose(np.dot(KE1, np.power(xT, 1))), ...)`:
`sK[64*el + k] = KE1[k] * xT[el]`. -/
def sKfull (Edges : List Edge) (nely nelx : ℕ) : List ℚ :=
  (xTE Edges nely nelx).flatMap fun xel => KE1flat.map fun kv => kv * xel

def iKfull (nely nelx : ℕ) : List ℕ := (edofMatFull nely nelx).flatMap iKblock

def jKfull (nely nelx : ℕ) : List ℕ := (edofMatFull nely nelx).flatMap jKblock

/-! ## The void-element deletion loop (`_FEM` lines 121–126) -/

/-- `for j in range(lo + n - 1, lo - 1, -1): arr = np.delete(arr, j, 0)`:
erase `n` consecutive indices starting at `lo`, highest first. -/
def eraseBlockDesc {α : Type} (l : List α) (lo : ℕ) : ℕ → List α
  | 0 => l
  | n+1 => eraseBlockDesc (l.eraseIdx (lo + n)) lo n

/-- The outer loop `for i in range(len(e)-1, -1, -1)` applied to a triplet
array: for each void element `e[i]` (largest first) its 64-entry block
`[64*(e[i]-1), 64*e[i])` is erased, highest index first. -/
def delTriplets {α : Type} (l : List α) (e : List ℕ) : List α :=
  e.reverse.foldl (fun acc v => eraseBlockDesc acc (64 * (v - 1)) 64) l

/-- The outer loop applied to `edofMat`:
`edofMat = np.delete(edofMat, e[i]-1, 0)`, largest `e[i]` first. -/
def delRows {α : Type} (l : List α) (e : List ℕ) : List α :=
  e.reverse.foldl (fun acc v => acc.eraseIdx (v - 1)) l

/-- The surviving triplet arrays and DOF-map rows. -/
def iKrem (Edges : List Edge) (nely nelx : ℕ) : List ℕ :=
  delTriplets (iKfull nely nelx) (voidList Edges nely nelx)

def jKrem (Edges : List Edge) (nely nelx : ℕ) : List ℕ :=
  delTriplets (jKfull nely nelx) (voidList Edges nely nelx)

def sKrem (Edges : List Edge) (nely nelx : ℕ) : List ℚ :=
  delTriplets (sKfull Edges nely nelx) (voidList Edges nely nelx)

def edofRem (Edges : List Edge) (nely nelx : ℕ) : List (List ℕ) :=
  delRows (edofMatFull nely nelx) (voidList Edges nely nelx)

/-! ### Characterizing the deletion loops -/

lemma eraseBlockDesc_eq {α : Type} (n : ℕ) : ∀ (l : List α) (lo : ℕ),
    eraseBlockDesc l lo n = l.take lo ++ l.drop (lo + n) := by
  induction n with
  | zero => intro l lo; simp [eraseBlockDesc]
  | succ n ih =>
    intro l lo
    rw [eraseBlockDesc, ih]
    rcases Nat.le_total (lo + n) l.length with hle | hgt
    · have h2 : (l.take (lo + n)).length = lo + n := by
        rw [List.length_take]; omega
      have e1 : l.eraseIdx (lo + n) = l.take (lo + n) ++ l.drop (lo + n + 1) :=
        List.eraseIdx_eq_take_drop_succ l _
      have e2 : (l.take (lo + n) ++ l.drop (lo + n + 1)).take lo = l.take lo := by
        rw [List.take_append_eq_append_take, h2, List.take_take]
        have hm : min lo (lo + n) = lo := by omega
        have hz : lo - (lo + n) = 0 := by omega
        rw [hm, hz, List.take_zero, List.append_nil]
      have e3 : (l.take (lo + n) ++ l.drop (lo + n + 1)).drop (lo + n) =
          l.drop (lo + n + 1) := by
        rw [List.drop_append_eq_append_drop, h2]
        have hz : lo + n - (lo + n) = 0 := by omega
        have hnil : (l.take (lo + n)).drop (lo + n) = [] :=
          List.drop_eq_nil_of_le (Nat.le_of_eq h2)
        rw [hz, List.drop_zero, hnil, List.nil_append]
      rw [e1, e2, e3]
      have : lo + n + 1 = lo + (n + 1) := by omega
      rw [this]
    · have h6 : l.eraseIdx (lo + n) = l := List.eraseIdx_of_length_le hgt
      rw [h6]
      have h7 : l.drop (lo + n) = [] := List.drop_eq_nil_of_le hgt
      have h8 : l.drop (lo + (n+1)) = [] := List.drop_eq_nil_of_le (by omega)
      rw [h7, h8]

lemma flatten_take_chunks {α : Type} (L : ℕ) : ∀ (m : ℕ) (chunks : List (List α)),
    (∀ c ∈ chunks, c.length = L) →
    chunks.flatten.take (L * m) = (chunks.take m).flatten := by
  intro m
  induction m with
  | zero => intro chunks _; simp
  | succ m ih =>
    intro chunks hlen
    cases chunks with
    | nil => simp
    | cons c rest =>
      have hc : c.length = L := hlen c (by simp)
      rw [List.flatten_cons, List.take_append_eq_append_take, hc]
      have h1 : L * (m + 1) = L + L * m := by ring
      have h2 : c.take (L * (m+1)) = c := List.take_of_length_le (by omega)
      rw [h2, h1]
      have h3 : L + L * m - L = L * m := by omega
      rw [h3, ih rest (fun d hd => hlen d (by simp [hd]))]
      simp

lemma flatten_drop_chunks {α : Type} (L : ℕ) : ∀ (m : ℕ) (chunks : List (List α)),
    (∀ c ∈ chunks, c.length = L) →
    chunks.flatten.drop (L * m) = (chunks.drop m).flatten := by
  intro m
  induction m with
  | zero => intro chunks _; simp
  | succ m ih =>
    intro chunks hlen
    cases chunks with
    | nil => simp
    | cons c rest =>
      have hc : c.length = L := hlen c (by simp)
      have hmul : L * 1 ≤ L * (m + 1) := Nat.mul_le_mul_left L (by omega)
      rw [List.flatten_cons, List.drop_append_eq_append_drop, hc]
      have h1 : c.drop (L * (m+1)) = [] := List.drop_eq_nil_of_le (by omega)
      have h3 : L * (m + 1) - L = L * m := by
        have : L * (m + 1) = L * m + L := by ring
        omega
      rw [h1, h3, ih rest (fun d hd => hlen d (by simp [hd]))]
      simp

/-- Erasing one element's 64-entry block from the flattened triplet list is
erasing that element's chunk. -/
lemma eraseBlockDesc_flatten {α : Type} (chunks : List (List α)) (v : ℕ)
    (hv : 1 ≤ v) (hlen : ∀ c ∈ chunks, c.length = 64) :
    eraseBlockDesc chunks.flatten (64 * (v - 1)) 64 =
      (chunks.eraseIdx (v - 1)).flatten := by
  rw [eraseBlockDesc_eq, flatten_take_chunks 64 (v-1) chunks hlen]
  have h1 : 64 * (v - 1) + 64 = 64 * v := by omega
  rw [h1, flatten_drop_chunks 64 v chunks hlen]
  rw [List.eraseIdx_eq_take_drop_succ]
  have h2 : v - 1 + 1 = v := by omega
  rw [h2, List.flatten_append]

/-- The triplet deletion loop erases exactly the chunks at the (1-based)
positions listed in `e`; it mirrors the row deletion loop on chunk level. -/
lemma delTriplets_flatten {α : Type} (e : List ℕ) :
    ∀ chunks : List (List α), (∀ c ∈ chunks, c.length = 64) →
      (∀ v ∈ e, 1 ≤ v) →
      delTriplets chunks.flatten e = (delRows chunks e).flatten := by
  induction e using List.reverseRecOn with
  | nil => intro chunks _ _; simp [delTriplets, delRows]
  | append_singleton e' v ih =>
    intro chunks hlen h1
    have hv : 1 ≤ v := h1 v (by simp)
    have step : ∀ {β : Type} (l : β) (g : β → ℕ → β),
        (e' ++ [v]).reverse.foldl g l = e'.reverse.foldl g (g l v) := by
      intro β l g; rw [List.reverse_append]; simp
    rw [delTriplets, delRows, step, step]
    rw [eraseBlockDesc_flatten chunks v hv hlen]
    exact ih (chunks.eraseIdx (v - 1))
      (fun c hc => hlen c ((List.eraseIdx_sublist _ _).mem hc))
      (fun w hw => h1 w (by simp [hw]))

/-! ### The positional sieve: closed form of the row deletion loop -/

/-- `sieveFrom e k l` keeps the elements of `l` whose (1-based) position,
counting from `k + 1`, is not listed in `e`. -/
def sieveFrom {α : Type} (e : List ℕ) : ℕ → List α → List α
  | _, [] => []
  | k, a :: l =>
    if k + 1 ∈ e then sieveFrom e (k+1) l else a :: sieveFrom e (k+1) l

lemma sieveFrom_high {α : Type} (e : List ℕ) :
    ∀ (l : List α) (k : ℕ), (∀ w ∈ e, w ≤ k) → sieveFrom e k l = l := by
  intro l
  induction l with
  | nil => intro k _; rfl
  | cons a t ih =>
    intro k hk
    rw [sieveFrom, if_neg (fun hmem => by have := hk _ hmem; omega)]
    rw [ih (k+1) (fun w hw => Nat.le_succ_of_le (hk w hw))]

lemma sieveFrom_append_last {α : Type} (e' : List ℕ) (v : ℕ)
    (hv : ∀ w ∈ e', w < v) :
    ∀ (l : List α) (k : ℕ), k < v →
      sieveFrom (e' ++ [v]) k l = sieveFrom e' k (l.eraseIdx (v - 1 - k)) := by
  intro l
  induction l with
  | nil => intro k _; simp [sieveFrom]
  | cons a t ih =>
    intro k hk
    rcases Nat.lt_or_ge (k + 1) v with hlt | hge
    · have hne : k + 1 ≠ v := by omega
      have hidx : v - 1 - k = (v - 1 - (k+1)) + 1 := by omega
      rw [hidx, List.eraseIdx_cons_succ]
      rw [sieveFrom]
      by_cases hmem : k + 1 ∈ e'
      · rw [if_pos (by simp [hmem]), sieveFrom, if_pos hmem]
        exact ih (k+1) hlt
      · rw [if_neg (by simp [hmem, hne]), sieveFrom, if_neg hmem]
        rw [ih (k+1) hlt]
    · have hkv : k + 1 = v := by omega
      have hidx : v - 1 - k = 0 := by omega
      rw [hidx, List.eraseIdx_cons_zero]
      rw [sieveFrom, if_pos (by simp [hkv])]
      rw [sieveFrom_high (e' ++ [v]) t (k+1)
        (fun w hw => by rcases List.mem_append.mp hw with h | h
                        · exact Nat.le_of_lt (by have := hv w h; omega)
                        · simp at h; omega)]
      rw [sieveFrom_high e' t k (fun w hw => by have := hv w hw; omega)]

/-- Closed form of the row deletion loop: for a sorted duplicate-free list of
positive positions, deleting rows `e[i] - 1` in descending order keeps
exactly the rows whose 1-based position is not in `e`. -/
lemma delRows_eq_sieve {α : Type} (e : List ℕ) (hs : List.Sorted (· < ·) e)
    (h1 : ∀ v ∈ e, 1 ≤ v) : ∀ l : List α, delRows l e = sieveFrom e 0 l := by
  induction e using List.reverseRecOn with
  | nil => intro l; exact (sieveFrom_high [] l 0 (by simp)).symm
  | append_singleton e' v ih =>
    intro l
    have hpw := List.pairwise_append.mp hs
    have hv : ∀ w ∈ e', w < v := fun w hw => hpw.2.2 w hw v (by simp)
    have step : ∀ {β : Type} (l : β) (g : β → ℕ → β),
        (e' ++ [v]).reverse.foldl g l = e'.reverse.foldl g (g l v) := by
      intro β l g; rw [List.reverse_append]; simp
    rw [delRows, step]
    have h0v : 0 < v := h1 v (by simp)
    rw [sieveFrom_append_last e' v hv l 0 h0v]
    have : v - 1 - 0 = v - 1 := by omega
    rw [this]
    exact ih hpw.1 (fun w hw => h1 w (by simp [hw])) (l.eraseIdx (v - 1))

/-- Sieving a mapped `range'` block: survivors are the mapped indices whose
successor is not listed. -/
lemma sieveFrom_map_range' {α : Type} (e : List ℕ) (f : ℕ → α) :
    ∀ (n k : ℕ), sieveFrom e k ((List.range' k n).map f) =
      ((List.range' k n).filter (fun i => decide ((i + 1) ∉ e))).map f := by
  intro n
  induction n with
  | zero => intro k; rfl
  | succ n ih =>
    intro k
    rw [List.range'_succ, List.map_cons, List.filter_cons, sieveFrom]
    by_cases hmem : k + 1 ∈ e
    · rw [if_pos hmem, ih (k + 1)]
      have hd : (decide ((k + 1) ∉ e)) = false := by simp [hmem]
      rw [hd]
      simp
    · rw [if_neg hmem, ih (k + 1)]
      have hd : (decide ((k + 1) ∉ e)) = true := by simp [hmem]
      rw [hd]
      simp

/-! ### Surviving elements: the solid-element view -/

/-- Elements whose 1-based index is not in `voidList`: the solid elements,
in ascending 0-based order. -/
def solidEls (Edges : List Edge) (nely nelx : ℕ) : List ℕ :=
  (List.range (nelx * nely)).filter
    (fun el => decide ((el + 1) ∉ voidList Edges nely nelx))

lemma voidList_pos (Edges : List Edge) (nely nelx : ℕ) :
    ∀ v ∈ voidList Edges nely nelx, 1 ≤ v := by
  intro v hv
  obtain ⟨ely, -, elx, -, -, rfl⟩ := (mem_voidList_iff Edges nely nelx v).mp hv
  omega

lemma voidList_sorted_lt (Edges : List Edge) (nely nelx : ℕ) :
    List.Sorted (· < ·) (voidList Edges nely nelx) :=
  (voidList_sorted Edges nely nelx).lt_of_le (voidList_nodup Edges nely nelx)

/-- `edofMat` in closed form: row `el` is the offset pattern applied to the
element's base DOF. -/
lemma edofMatFull_eq (nely nelx : ℕ) (hy : 0 < nely) :
    edofMatFull nely nelx =
      (List.range (nelx * nely)).map (fun el => edofTuple nely (edofBase nely el)) := by
  unfold edofMatFull
  rw [edofVec_eq_CM nely nelx hy]
  unfold edofVecCM
  rw [List.map_map]
  rfl

/-- The surviving `edofMat` rows are exactly the solid elements' DOF rows. -/
lemma edofRem_eq (Edges : List Edge) (nely nelx : ℕ) (hy : 0 < nely) :
    edofRem Edges nely nelx =
      (solidEls Edges nely nelx).map (fun el => edofTuple nely (edofBase nely el)) := by
  unfold edofRem
  rw [delRows_eq_sieve _ (voidList_sorted_lt Edges nely nelx)
    (voidList_pos Edges nely nelx), edofMatFull_eq nely nelx hy]
  rw [List.range_eq_range']
  rw [sieveFrom_map_range']
  unfold solidEls
  rw [List.range_eq_range']

/-! ### Closed forms of the surviving triplet arrays -/

lemma getD_map_range {α : Type} (f : ℕ → α) (n i : ℕ) (d : α) (h : i < n) :
    ((List.range n).map f).getD i d = f i := by
  rw [List.getD_eq_getElem?_getD, List.getElem?_map, List.getElem?_range h]
  rfl

/-- Swapping a double iteration into a single column-major range. -/
lemma flatMap_ranges_eq {α : Type} (g : ℕ → ℕ → α) (m n : ℕ) :
    ((List.range m).flatMap fun c => (List.range n).map fun r => g c r) =
      (List.range (m * n)).map fun el => g (el / n) (el % n) := by
  rcases Nat.eq_zero_or_pos n with hn | hn
  · subst hn; simp
  induction m with
  | zero => simp
  | succ m ih =>
    rw [List.range_succ, List.flatMap_append, ih]
    have hmn : (m + 1) * n = m * n + n := by ring
    have tail : List.map ((fun el => g (el / n) (el % n)) ∘ (fun x => m * n + x))
        (List.range n) = List.map (fun r => g m r) (List.range n) := by
      apply List.map_congr_left
      intro r hr
      rw [List.mem_range] at hr
      have hd : (m * n + r) / n = m := by
        rw [Nat.mul_comm m, Nat.mul_add_div hn, Nat.div_eq_of_lt hr]; omega
      have hm : (m * n + r) % n = r := by
        rw [Nat.mul_comm m, Nat.mul_add_mod, Nat.mod_eq_of_lt hr]
      simp [hd, hm]
    rw [hmn, List.range_add, List.map_append, List.map_map, tail]
    simp

lemma length_edofTuple (nely b : ℕ) : (edofTuple nely b).length = 8 := rfl

lemma length_iKblock (row : List ℕ) : (iKblock row).length = 8 * row.length := by
  rw [iKblock, show List.range 8 = [0,1,2,3,4,5,6,7] by decide]
  simp [List.length_append]
  omega

lemma length_jKblock (row : List ℕ) : (jKblock row).length = 8 * row.length := by
  induction row with
  | nil => rfl
  | cons a t ih => simp [jKblock, List.length_flatMap] at ih ⊢; omega

lemma length_KE1flat : KE1flat.length = 64 := by
  rw [KE1flat, show List.range 8 = [0,1,2,3,4,5,6,7] by decide]
  simp

/-- `iK` after deletion: the solid elements' blocks, in order. -/
lemma iKrem_eq (Edges : List Edge) (nely nelx : ℕ) (hy : 0 < nely) :
    iKrem Edges nely nelx =
      (solidEls Edges nely nelx).flatMap
        (fun el => iKblock (edofTuple nely (edofBase nely el))) := by
  unfold iKrem iKfull
  rw [List.flatMap_def, delTriplets_flatten _ _
    (by rintro c hc
        rw [List.mem_map] at hc
        obtain ⟨row, hrow, rfl⟩ := hc
        unfold edofMatFull at hrow
        rw [List.mem_map] at hrow
        obtain ⟨b, -, rfl⟩ := hrow
        rw [length_iKblock, length_edofTuple])
    (voidList_pos Edges nely nelx)]
  rw [delRows_eq_sieve _ (voidList_sorted_lt Edges nely nelx)
    (voidList_pos Edges nely nelx)]
  rw [edofMatFull_eq nely nelx hy, List.map_map, List.range_eq_range',
    sieveFrom_map_range', List.flatMap_def]
  unfold solidEls
  rw [List.range_eq_range']
  rfl

/-- `jK` after deletion. -/
lemma jKrem_eq (Edges : List Edge) (nely nelx : ℕ) (hy : 0 < nely) :
    jKrem Edges nely nelx =
      (solidEls Edges nely nelx).flatMap
        (fun el => jKblock (edofTuple nely (edofBase nely el))) := by
  unfold jKrem jKfull
  rw [List.flatMap_def, delTriplets_flatten _ _
    (by rintro c hc
        rw [List.mem_map] at hc
        obtain ⟨row, hrow, rfl⟩ := hc
        unfold edofMatFull at hrow
        rw [List.mem_map] at hrow
        obtain ⟨b, -, rfl⟩ := hrow
        rw [length_jKblock, length_edofTuple])
    (voidList_pos Edges nely nelx)]
  rw [delRows_eq_sieve _ (voidList_sorted_lt Edges nely nelx)
    (voidList_pos Edges nely nelx)]
  rw [edofMatFull_eq nely nelx hy, List.map_map, List.range_eq_range',
    sieveFrom_map_range', List.flatMap_def]
  unfold solidEls
  rw [List.range_eq_range']
  rfl

lemma gridX_getD (Edges : List Edge) (nely nelx ely elx : ℕ)
    (hely : ely < nely) (helx : elx < nelx) :
    ((gridX Edges nely nelx).getD ely []).getD elx 0 =
      if isVoidCell Edges nely nelx ely elx then (0 : ℚ) else 1 := by
  unfold gridX
  rw [getD_map_range _ _ _ _ hely, getD_map_range _ _ _ _ helx]

/-- `xT*E0` in closed form over column-major element indices. -/
lemma xTE_eq (Edges : List Edge) (nely nelx : ℕ) (hy : 0 < nely) :
    xTE Edges nely nelx = (List.range (nelx * nely)).map fun el =>
      (if isVoidCell Edges nely nelx (el % nely) (el / nely) then (0 : ℚ) else 1)
        * E0 := by
  unfold xTE
  rw [flatMap_ranges_eq
    (fun elx ely => ((gridX Edges nely nelx).getD ely []).getD elx 0) nelx nely]
  rw [List.map_map]
  apply List.map_congr_left
  intro el hel
  rw [List.mem_range] at hel
  have h1 : el % nely < nely := Nat.mod_lt _ hy
  have h2 : el / nely < nelx :=
    Nat.div_lt_of_lt_mul (by rw [Nat.mul_comm] at hel; exact hel)
  simp only [Function.comp_apply, gridX_getD Edges nely nelx _ _ h1 h2]

/-- `sK` after deletion: for each solid element, the 64 entries
`KE[j][i] * (x_el * E0)`. -/
lemma sKrem_eq (Edges : List Edge) (nely nelx : ℕ) (hy : 0 < nely) :
    sKrem Edges nely nelx =
      (solidEls Edges nely nelx).flatMap fun el => KE1flat.map
        (· * ((if isVoidCell Edges nely nelx (el % nely) (el / nely) then (0 : ℚ)
          else 1) * E0)) := by
  unfold sKrem sKfull
  rw [xTE_eq Edges nely nelx hy]
  rw [List.flatMap_def, List.map_map]
  rw [delTriplets_flatten _ _
    (by rintro c hc
        rw [List.mem_map] at hc
        obtain ⟨el, -, rfl⟩ := hc
        simp [length_KE1flat])
    (voidList_pos Edges nely nelx)]
  rw [delRows_eq_sieve _ (voidList_sorted_lt Edges nely nelx)
    (voidList_pos Edges nely nelx)]
  rw [List.range_eq_range', sieveFrom_map_range', List.flatMap_def]
  unfold solidEls
  rw [List.range_eq_range']
  rfl

/-- Void membership of `el + 1` in terms of the cell decomposition of `el`. -/
lemma mem_voidList_el (Edges : List Edge) (nely nelx el : ℕ) (hy : 0 < nely)
    (hel : el < nelx * nely) :
    (el + 1) ∈ voidList Edges nely nelx ↔
      isVoidCell Edges nely nelx (el % nely) (el / nely) = true := by
  rw [mem_voidList_iff]
  constructor
  · rintro ⟨ely, hely, elx, helx, hvoid, heq⟩
    have hel' : el = elx * nely + ely := by omega
    have hmod : el % nely = ely := by
      rw [hel', Nat.mul_comm elx, Nat.mul_add_mod, Nat.mod_eq_of_lt hely]
    have hdiv : el / nely = elx := by
      rw [hel', Nat.mul_comm elx, Nat.mul_add_div hy, Nat.div_eq_of_lt hely]; omega
    rw [hmod, hdiv]; exact hvoid
  · intro h
    refine ⟨el % nely, Nat.mod_lt _ hy, el / nely,
      Nat.div_lt_of_lt_mul (by rw [Nat.mul_comm] at hel; exact hel), h, ?_⟩
    have hdm := Nat.div_add_mod el nely
    have hcomm : el / nely * nely = nely * (el / nely) := Nat.mul_comm _ _
    omega

/-! ## Load vector `F` (`_FEM` lines 128–130) -/

/-- `F = np.zeros([2*(nely+1)*(nelx+1), 1])`, then
`F[2 + 2*(nely+1)*i - 1][0] = -fmag` for `i = 0..nelx`, where
`fmag = 10000/nelx` (0-based index `1 + 2*(nely+1)*i`). -/
def Fvec (nely nelx : ℕ) : List ℚ :=
  (List.range (nelx + 1)).foldl
    (fun F i => F.set (2 + 2 * (nely + 1) * i - 1) (-(10000 / (nelx : ℚ))))
    (List.replicate (2 * (nely + 1) * (nelx + 1)) 0)

/-! ## The discarded `np.delete` loop on `F` (`_FEM` lines 132–137) -/

/-- `np.isin(edofMat, i).any()`: is value `i` present in the remaining
`edofMat`? -/
def edofContains (rows : List (List ℕ)) (i : ℕ) : Bool :=
  rows.any fun row => row.any fun d => d == i

/-- Python slicing semantics of `np.delete(F, j, 0)` for an integer index
(negative indices count from the end).  The loop below discards the result,
so this function is never applied to the running value. -/
def npDeleteRow (l : List ℚ) (j : ℤ) : List ℚ :=
  if j < 0 then l.eraseIdx (l.length - (-j).toNat) else l.eraseIdx j.toNat

/-- The loop `for i in range(2*(nely+1)*(nelx+1), -1, -1)`: iterates `i` from
`2*(nely+1)*(nelx+1)` down to `0`; when `i` is not present in `edofMat` it
evaluates `np.delete(F, i-1, 0)` *without assigning the result*, so the
accumulator is returned unchanged in both branches. -/
def FafterLoop (Edges : List Edge) (nely nelx : ℕ) : List ℚ :=
  ((List.range (2 * (nely + 1) * (nelx + 1) + 1)).reverse).foldl
    (fun F i =>
      if edofContains (edofRem Edges nely nelx) i then F
      else
        let _discarded := npDeleteRow F ((i : ℤ) - 1)
        F)
    (Fvec nely nelx)

/-! ## Fixed and free DOFs (`_FEM` lines 139–176) -/

/-- `np.round`: round half to even (NumPy banker's rounding). -/
def npRound (q : ℚ) : ℤ :=
  let f := ⌊q⌋
  if q - f < 1/2 then f
  else if (1:ℚ)/2 < q - f then f + 1
  else if f % 2 = 0 then f else f + 1

/-- `np.max` of a list: `none` on the empty list (NumPy raises `ValueError`). -/
def listMax {α : Type} [LinearOrder α] : List α → Option α
  | [] => none
  | a :: t => some (t.foldl (fun m x => if m < x then x else m) a)

/-- `np.min` of a list. -/
def listMin {α : Type} [LinearOrder α] : List α → Option α
  | [] => none
  | a :: t => some (t.foldl (fun m x => if x < m then x else m) a)

/-- `np.max(e)` for nonempty `e` (the code crashes on empty `e`, which the
pipeline models separately). -/
def maxE (e : List ℕ) : ℕ := (listMax e).getD 0

/-- `np.min(e)`. -/
def minE (e : List ℕ) : ℕ := (listMin e).getD 0

/-- `i = np.int(np.round(((nelx*nely) - np.max(e)) / 10))` (line 140). -/
def iFix (e : List ℕ) (nely nelx : ℕ) : ℤ :=
  npRound ((((nelx * nely : ℕ) : ℚ) - ((maxE e : ℕ) : ℚ)) / 10)

/-- `fixedcon` (lines 141–145): for `j = 1..i`, append
`2*(nely+1)*(round(max(e)/10) + j + 1) - 1` and
`2*(nely+1)*(round(max(e)/10) + j)`. -/
def fixedcon (e : List ℕ) (nely nelx : ℕ) : List ℕ :=
  (List.range' 1 (iFix e nely nelx).toNat).flatMap fun j =>
    [2 * (nely + 1) * ((npRound (((maxE e : ℕ) : ℚ) / 10)).toNat + j + 1) - 1,
     2 * (nely + 1) * ((npRound (((maxE e : ℕ) : ℚ) / 10)).toNat + j)]

/-- `fixedcon2` (lines 147–149): `[2*j for j in range(0, min(e)+1)]`. -/
def fixedcon2 (e : List ℕ) : List ℕ :=
  (List.range (minE e + 1)).map fun j => 2 * j

/-- `fixeddofs = np.union1d(fixedcon, fixedcon2)`: sorted duplicate-free
union. -/
def fixeddofs (e : List ℕ) (nely nelx : ℕ) : List ℕ :=
  ((fixedcon e nely nelx ++ fixedcon2 e).insertionSort (· ≤ ·)).dedup

/-- `alldofs` after the zeroing loop (lines 153–170): entry `i` holds `i+1`
if DOF `i+1` appears in the remaining `edofMat`, else `0`. -/
def alldofsZeroed (Edges : List Edge) (nely nelx : ℕ) : List ℕ :=
  (List.range (2 * (nely + 1) * (nelx + 1))).map fun i =>
    if edofContains (edofRem Edges nely nelx) (i + 1) then i + 1 else 0

/-- `alldofs` after the zero-removal loop (lines 172–174). -/
def alldofsKept (Edges : List Edge) (nely nelx : ℕ) : List ℕ :=
  (alldofsZeroed Edges nely nelx).filter (· ≠ 0)

/-- `freedofs = np.setdiff1d(alldofs, fixeddofs)` (line 176): sorted
duplicate-free list of kept DOFs that are not fixed. -/
def freedofs (Edges : List Edge) (nely nelx : ℕ) : List ℕ :=
  (((alldofsKept Edges nely nelx).filter
    (fun d => d ∉ fixeddofs (voidList Edges nely nelx) nely nelx)).insertionSort
      (· ≤ ·)).dedup

/-! ## Global stiffness assembly (`_FEM` lines 178–184) -/

/-- The triplets `((iK, jK), sK)` zipped (after deletion): the input of the
`coo_matrix` constructor, with 1-based DOF indices (`ik = iK - 1`,
`jk = jK - 1` are the 0-based row/column indices). -/
def triplets (Edges : List Edge) (nely nelx : ℕ) : List ((ℕ × ℕ) × ℚ) :=
  ((iKrem Edges nely nelx).zip (jKrem Edges nely nelx)).zip (sKrem Edges nely nelx)

/-- Entry `K[r][c]` (0-based) of the assembled matrix: `coo_matrix` sums all
triplet values at the same `(row, col)` pair. -/
def Kraw (Edges : List Edge) (nely nelx : ℕ) (r c : ℕ) : ℚ :=
  (((triplets Edges nely nelx).filter
    (fun t => t.1.1 == r + 1 && t.1.2 == c + 1)).map (fun t => t.2)).sum

/-- The declared `coo_matrix` shape
`(np.int(np.max(iK)), np.int(np.max(jK)))` (line 182). -/
def Kshape (Edges : List Edge) (nely nelx : ℕ) : ℕ × ℕ :=
  (maxE (iKrem Edges nely nelx), maxE (jKrem Edges nely nelx))

/-- `K = (K + np.transpose(K)) / 2` (line 184), as an entry function. -/
def Ksym (Edges : List Edge) (nely nelx : ℕ) (r c : ℕ) : ℚ :=
  (Kraw Edges nely nelx r c + Kraw Edges nely nelx c r) / 2

/-! ## Reduced system and solve (`_FEM` lines 186–198) -/

def dotQ (a b : List ℚ) : ℚ := (a.zipWith (· * ·) b).sum

/-- `K2[i][j] = K[freedofs[i] - 1][freedofs[j] - 1]` (lines 186–190). -/
def K2 (Edges : List Edge) (nely nelx : ℕ) : List (List ℚ) :=
  (freedofs Edges nely nelx).map fun fi =>
    (freedofs Edges nely nelx).map fun fj =>
      Ksym Edges nely nelx (fi - 1) (fj - 1)

/-- `F2[i] = F[freedofs[i] - 1]` (line 192). -/
def F2 (Edges : List Edge) (nely nelx : ℕ) : List ℚ :=
  (freedofs Edges nely nelx).map fun fd => (Fvec nely nelx).getD (fd - 1) 0

def rowScale (c : ℚ) (row : List ℚ) : List ℚ := row.map (c * ·)

def rowSub (r1 r2 : List ℚ) : List ℚ := r1.zipWith (· - ·) r2

/-- One Gauss–Jordan step on column `k` of the augmented matrix: find a row
`p ≥ k` with a nonzero entry in column `k` (fail if none — singular), swap it
into position `k`, normalize it, and eliminate column `k` from all other
rows. -/
def gjStep (k : ℕ) (rows : List (List ℚ)) : Option (List (List ℚ)) :=
  match (rows.drop k).findIdx? (fun row => row.getD k 0 != 0) with
  | none => none
  | some off =>
    let p := k + off
    let prow := rows.getD p []
    let rows1 := (rows.set p (rows.getD k [])).set k prow
    let piv := prow.getD k 0
    let norm := prow.map (· / piv)
    let rows2 := rows1.set k norm
    some ((List.range rows2.length).map fun idx =>
      if idx = k then norm
      else rowSub (rows2.getD idx []) (rowScale ((rows2.getD idx []).getD k 0) norm))

/-- Exact-arithmetic model of `np.linalg.inv`: Gauss–Jordan elimination on
`[m | I]`, returning `none` (`LinAlgError`) exactly when `m` is singular. -/
def matInv (m : List (List ℚ)) : Option (List (List ℚ)) :=
  let n := m.length
  let aug := (List.range n).map fun i =>
    m.getD i [] ++ (List.range n).map fun j => if j = i then (1 : ℚ) else 0
  ((List.range n).foldl (fun acc k => acc.bind (gjStep k)) (some aug)).map
    fun rows => rows.map (List.drop n)

/-- `U2 = np.dot(np.linalg.inv(K2), F2)` (line 196). -/
def U2 (Edges : List Edge) (nely nelx : ℕ) : Option (List ℚ) :=
  (matInv (K2 Edges nely nelx)).map fun inv =>
    inv.map fun row => dotQ row (F2 Edges nely nelx)

/-- The scatter loop (lines 197–198): `U = np.zeros(...)`, then
`U[freedofs[i] - 1] = U2[i]` for each `i`. -/
def scatterU (fd : List ℕ) (u2 : List ℚ) (N : ℕ) : List ℚ :=
  (List.range fd.length).foldl
    (fun U i => U.set (fd.getD i 1 - 1) (u2.getD i 0))
    (List.replicate N 0)

/-! ## Stress recovery (`_FEM` lines 200–218) -/

/-- The coefficient `E0 / (2*t*A*(1 - nu^2))` with `t = 50`,
`A = 4000/(nelx*nely)`, `nu = 0.3`. -/
def sigmaCoef (nely nelx : ℕ) : ℚ :=
  E0 / (2 * 50 * (4000 / ((nelx : ℚ) * (nely : ℚ))) * (1 - (3/10) ^ 2))

def Brow1 : List ℚ := [-1, 0, -1, 0, 1, 0, -1, 0]
def Brow2 : List ℚ := [0, -1, 0, -1, 0, 1, 0, 1]

/-- One row of `sigma`: gather `d[j] = U[edofMat[i][j] - 1]`, then
`coef * [[1, nu], [nu, 1]] · (B · d)` with `B = [Brow1, Brow2]`. -/
def sigmaElem (nely nelx : ℕ) (U : List ℚ) (row : List ℕ) : List ℚ :=
  let d := row.map fun dof => U.getD (dof - 1) 0
  let b1 := dotQ Brow1 d
  let b2 := dotQ Brow2 d
  [sigmaCoef nely nelx * (1 * b1 + (3/10) * b2),
   sigmaCoef nely nelx * ((3/10) * b1 + 1 * b2)]

/-- `np.abs`. -/
def qabs (q : ℚ) : ℚ := if q < 0 then -q else q

/-- Lines 200–214: build `sigma` row by row from the remaining `edofMat`,
take absolute values, then `maxsigma = np.max(sigma)` and
`area = (nelx*nely) - len(e)`.  `np.max` of a 0-row `sigma` raises, hence
`Option`. -/
def stressResult (Edges : List Edge) (nely nelx : ℕ) (U : List ℚ) :
    Option (ℚ × ℤ) :=
  let sig := (edofRem Edges nely nelx).map (sigmaElem nely nelx U)
  (listMax (sig.flatten.map qabs)).map fun ms =>
    (ms, ((nelx * nely : ℕ) : ℤ) - ((voidList Edges nely nelx).length : ℤ))

/-! ## The full analysis call -/

/-- `_FEM(Edges, nely, nelx, image=False)`, returning `(maxsigma, area)`.
`none` models an uncaught Python exception:
* `np.max(e)` on line 140 raises `ValueError` when `e` is empty
  (in particular for `Edges = []`);
* `np.max(iK)` on line 182 raises `ValueError` when the deletion loop has
  emptied the triplet arrays (every element void);
* `np.linalg.inv` on line 196 raises `LinAlgError` when `K2` is exactly
  singular. -/
def FEM (Edges : List Edge) (nely nelx : ℕ) : Option (ℚ × ℤ) :=
  if voidList Edges nely nelx = [] then none
  else if iKrem Edges nely nelx = [] then none
  else
    (U2 Edges nely nelx).bind fun u2 =>
      stressResult Edges nely nelx
        (scatterU (freedofs Edges nely nelx) u2 (2 * (nely + 1) * (nelx + 1)))

/-! ## Helper facts for the claim theorems -/

lemma membershiptest_nil (px py : ℚ) (nely nelx : ℕ) :
    membershiptest px py [] nely nelx = false := rfl

lemma voidList_nil (nely nelx : ℕ) : voidList [] nely nelx = [] := by
  unfold voidList voidRaw
  have hnone : ∀ l : List ℕ, l.filterMap (fun _ => (none : Option ℕ)) = [] := by
    intro l; induction l with
    | nil => rfl
    | cons a t ih => simp only [List.filterMap_cons]; exact ih
  have hnil : ∀ l : List ℕ, l.flatMap (fun _ => ([] : List ℕ)) = [] := by
    intro l; induction l with
    | nil => rfl
    | cons a t ih => simp only [List.flatMap_cons, List.nil_append]; exact ih
  simp [isVoidCell, membershiptest_nil, hnone, hnil]

lemma voidList_mem_le (Edges : List Edge) (nely nelx : ℕ) :
    ∀ v ∈ voidList Edges nely nelx, v ≤ nelx * nely := by
  intro v hv
  obtain ⟨ely, hely, elx, helx, -, rfl⟩ := (mem_voidList_iff Edges nely nelx v).mp hv
  calc elx * nely + ely + 1 ≤ elx * nely + nely := by omega
    _ = (elx + 1) * nely := by ring
    _ ≤ nelx * nely := Nat.mul_le_mul_right _ helx

lemma elx_nely_lt (nely nelx ely elx : ℕ) (hely : ely < nely) (helx : elx < nelx) :
    elx * nely + ely < nelx * nely :=
  calc elx * nely + ely < elx * nely + nely := by omega
    _ = (elx + 1) * nely := by ring
    _ ≤ nelx * nely := Nat.mul_le_mul_right _ helx

lemma mod_div_of_decomp (nely ely elx : ℕ) (hely : ely < nely) :
    (elx * nely + ely) % nely = ely ∧ (elx * nely + ely) / nely = elx := by
  constructor
  · rw [Nat.mul_comm elx, Nat.mul_add_mod, Nat.mod_eq_of_lt hely]
  · rw [Nat.mul_comm elx, Nat.mul_add_div (by omega), Nat.div_eq_of_lt hely]; omega

/-! ## Claim theorems -/

/-- **C1** (code bug). For `Edges = []` every grid cell is indeed classified
solid and the void list is empty — but then `np.max(e)` on line 140 raises
`ValueError` (maximum of an empty array), so `_FEM` crashes instead of
returning `area == nelx*nely` with a positive `max_stress`. In particular
`_FEM([], 4, 4)` crashes rather than returning `area == 16`. -/
theorem C1_empty_edges_all_solid_but_crash :
    (∀ nely nelx ely elx : ℕ, isVoidCell [] nely nelx ely elx = false) ∧
    (∀ nely nelx : ℕ, voidList [] nely nelx = []) ∧
    (∀ nely nelx : ℕ, FEM [] nely nelx = none) ∧
    FEM [] 4 4 = none := by
  refine ⟨fun nely nelx ely elx => rfl, voidList_nil, fun nely nelx => ?_, ?_⟩
  · unfold FEM
    rw [if_pos (voidList_nil nely nelx)]
  · unfold FEM
    rw [if_pos (voidList_nil 4 4)]

/-- The 2×2 grid input whose hole covers all four representative points:
a rectangle spanning `x ∈ (0.5, 2.5)`, `y ∈ (-0.5, 1.5)` in grid units
(design units `x ∈ (5, 25)`, `y ∈ (-2.5, 7.5)` for `nelx = nely = 2`). -/
def holeAll22 : List Edge :=
  [⟨1, 5, -5/2, 25, -5/2⟩, ⟨1, 25, -5/2, 25, 15/2⟩,
   ⟨1, 25, 15/2, 5, 15/2⟩, ⟨1, 5, 15/2, 5, -5/2⟩]

/-- **C2** (code bug). An edge list classifying *every* element void does not
produce an explicit `DegenerateGeometryError` result: no such error type
exists anywhere in the code. Instead the deletion loop empties the triplet
arrays and `np.max(iK)` on line 182 raises `ValueError` — an unhandled
crash, modelled as `none`. -/
theorem C2_all_void_crashes_uncaught :
    voidList holeAll22 2 2 = [1, 2, 3, 4] ∧
    solidEls holeAll22 2 2 = [] ∧
    iKrem holeAll22 2 2 = [] ∧
    FEM holeAll22 2 2 = none := by decide

/-- **C4** (confirmed). The assembled global stiffness matrix, after the
explicit symmetrization `K = (K + K.T)/2` on line 184, is exactly
symmetric entrywise. -/
theorem C4_K_symmetric (Edges : List Edge) (nely nelx : ℕ) (r c : ℕ) :
    Ksym Edges nely nelx r c = Ksym Edges nely nelx c r := by
  unfold Ksym
  ring

/-- **C6** (confirmed). Cell `(ely, elx)` is void — equivalently its 1-based
column-major index `elx*nely + ely + 1` is in the void list — iff the number
of active edges (first field `1`), scaled by `0.05*nelx` in `x` and
`0.1*nely` in `y`, crossing the segment from the representative point
`(elx+1, nely-ely-1)` to the fixed distant point `(1, 30)` is odd; and the
void list is sorted ascending and duplicate-free. -/
theorem C6_void_classification (Edges : List Edge) (nely nelx ely elx : ℕ)
    (hely : ely < nely) (helx : elx < nelx) :
    ((elx * nely + ely + 1) ∈ voidList Edges nely nelx ↔
      Odd (crossNumber ((elx : ℚ) + 1) ((nely : ℚ) - (ely : ℚ) - 1)
        Edges nely nelx)) ∧
    (voidList Edges nely nelx).Sorted (· ≤ ·) ∧
    (voidList Edges nely nelx).Nodup := by
  refine ⟨?_, voidList_sorted Edges nely nelx, voidList_nodup Edges nely nelx⟩
  obtain ⟨hmod, hdiv⟩ := mod_div_of_decomp nely ely elx hely
  rw [mem_voidList_el Edges nely nelx (elx * nely + ely) (by omega)
    (elx_nely_lt nely nelx ely elx hely helx), hmod, hdiv]
  unfold isVoidCell membershiptest
  rw [Nat.odd_iff]
  exact ⟨fun h => by simpa using h, fun h => by simpa using h⟩

/-- **C6** witness at a concrete input: on the 2×2 grid with the rectangle
hole around the representative point `(2, 0)`, cell `(ely, elx) = (1, 1)`
(index 4) is void with an odd crossing count, as the theorem instantiates. -/
theorem C6_void_classification_witness :
    (1 * 2 + 1 + 1) ∈ voidList
        [⟨1, 15, -5/2, 25, -5/2⟩, ⟨1, 25, -5/2, 25, 5/2⟩,
         ⟨1, 25, 5/2, 15, 5/2⟩, ⟨1, 15, 5/2, 15, -5/2⟩] 2 2 ↔
      Odd (crossNumber ((1 : ℚ) + 1) ((2 : ℚ) - (1 : ℚ) - 1)
        [⟨1, 15, -5/2, 25, -5/2⟩, ⟨1, 25, -5/2, 25, 5/2⟩,
         ⟨1, 25, 5/2, 15, 5/2⟩, ⟨1, 15, 5/2, 15, -5/2⟩] 2 2) :=
  (C6_void_classification _ 2 2 1 1 (by decide) (by decide)).1

/-! ### C7: classification invariances -/

/-- Endpoint reversal of an edge: swap `(x1, y1)` and `(x2, y2)`. -/
def revEdge (E : Edge) : Edge := ⟨E.act, E.x2, E.y2, E.x1, E.y1⟩

/-- **C7** counterexample. The point-in-polygon classification is *not*
invariant under reversing an edge's direction in general: for the single
active edge from `(0,0)` to `(40,600)` (scaled: `(0,0)` to `(2,60)`, whose
supporting line passes exactly through the distant ray endpoint `(1,30)`)
and test point `(-1, 0)` with `nely = nelx = 1`, the original orientation
classifies the point inside and the reversed orientation classifies it
outside — the collinear tie `ccw = False` breaks the symmetry. -/
theorem C7_reversal_counterexample :
    membershiptest (-1) 0 [⟨1, 0, 0, 40, 600⟩] 1 1 = true ∧
    membershiptest (-1) 0 ([⟨1, 0, 0, 40, 600⟩].map revEdge) 1 1 = false := by
  decide

lemma det3_swap (c d p : ℚ × ℚ) : det3 d c p = -det3 c d p := by
  unfold det3; ring

lemma ccw_swap (c d p : ℚ × ℚ) (h : det3 c d p ≠ 0) :
    ccw d c p = !ccw c d p := by
  unfold ccw
  rw [det3_swap]
  rcases lt_or_gt_of_ne h with hlt | hgt
  · have h1 : 0 < -det3 c d p := by linarith
    have h2 : ¬(0 < det3 c d p) := by linarith
    simp [h1, h2]
  · have h1 : ¬(0 < -det3 c d p) := by linarith
    simp [h1, hgt]

lemma bne_comm (a b : Bool) : (a != b) = (b != a) := by
  cases a <;> cases b <;> rfl

lemma bne_not_not (a b : Bool) : ((!a) != (!b)) = (a != b) := by
  cases a <;> cases b <;> rfl

lemma segCross_rev (a b c d : ℚ × ℚ) (h1 : det3 c d a ≠ 0)
    (h2 : det3 c d b ≠ 0) : segCross a b d c = segCross a b c d := by
  unfold segCross
  rw [ccw_swap c d a h1, ccw_swap c d b h2, bne_not_not, bne_comm (ccw a b d)]

lemma edgeHit_rev (px py : ℚ) (nely nelx : ℕ) (E : Edge)
    (h : E.act = 1 →
      det3 (scaled1 nely nelx E) (scaled2 nely nelx E) bigPoint ≠ 0 ∧
      det3 (scaled1 nely nelx E) (scaled2 nely nelx E) (px, py) ≠ 0) :
    edgeHit px py nely nelx (revEdge E) = edgeHit px py nely nelx E := by
  unfold edgeHit
  have hs1 : scaled1 nely nelx (revEdge E) = scaled2 nely nelx E := rfl
  have hs2 : scaled2 nely nelx (revEdge E) = scaled1 nely nelx E := rfl
  have hact : (revEdge E).act = E.act := rfl
  rw [hs1, hs2, hact]
  by_cases ha : E.act = 1
  · obtain ⟨hd1, hd2⟩ := h ha
    rw [segCross_rev bigPoint (px, py) _ _ hd1 hd2]
  · have hf : (E.act == 1) = false := by
      simp [ha]
    rw [hf]
    simp

/-- The axis-aligned rectangle hole covering exactly the four interior
elements of the 4×4 grid, counter-clockwise winding: grid-unit rectangle
`x ∈ (1.5, 3.5)`, `y ∈ (0.5, 2.5)` (design units `x ∈ (7.5, 17.5)`,
`y ∈ (1.25, 6.25)` at `nelx = nely = 4`). -/
def interiorRect44 : List Edge :=
  [⟨1, 15/2, 5/4, 35/2, 5/4⟩, ⟨1, 35/2, 5/4, 35/2, 25/4⟩,
   ⟨1, 35/2, 25/4, 15/2, 25/4⟩, ⟨1, 15/2, 25/4, 15/2, 5/4⟩]

/-- The same rectangle with the opposite winding: each edge
endpoint-reversed and the list order reversed. -/
def interiorRect44Rev : List Edge :=
  (interiorRect44.map revEdge).reverse

/-- **C7** amended. The classification is invariant under any permutation of
the edge list (hence under the starting point of the cycle). It is invariant
under reversing the direction of each edge *provided* no active edge's
supporting line passes through either ray endpoint — the counterexample
shows that without this proviso the claim is false. For the axis-aligned
rectangle hole covering the four interior elements of the 4×4 grid, cells
strictly inside classify void and cells strictly outside classify solid,
for both winding directions. -/
theorem C7_classification_invariances :
    (∀ (px py : ℚ) (nely nelx : ℕ) (Edges Edges' : List Edge),
      Edges.Perm Edges' →
      membershiptest px py Edges' nely nelx =
        membershiptest px py Edges nely nelx) ∧
    (∀ (px py : ℚ) (nely nelx : ℕ) (Edges : List Edge),
      (∀ E ∈ Edges, E.act = 1 →
        det3 (scaled1 nely nelx E) (scaled2 nely nelx E) bigPoint ≠ 0 ∧
        det3 (scaled1 nely nelx E) (scaled2 nely nelx E) (px, py) ≠ 0) →
      membershiptest px py (Edges.map revEdge) nely nelx =
        membershiptest px py Edges nely nelx) ∧
    (∀ ely < 4, ∀ elx < 4,
      ((elx * 4 + ely + 1) ∈ voidList interiorRect44 4 4 ↔
        (1 ≤ elx ∧ elx ≤ 2 ∧ 1 ≤ ely ∧ ely ≤ 2))) ∧
    voidList interiorRect44Rev 4 4 = voidList interiorRect44 4 4 := by
  refine ⟨?_, ?_, by decide, by decide⟩
  · intro px py nely nelx Edges Edges' hperm
    unfold membershiptest crossNumber
    rw [hperm.countP_eq]
  · intro px py nely nelx Edges hnd
    unfold membershiptest crossNumber
    rw [List.countP_map]
    have : List.countP (edgeHit px py nely nelx ∘ revEdge) Edges =
        List.countP (edgeHit px py nely nelx) Edges := by
      apply List.countP_congr
      intro E hE
      have := edgeHit_rev px py nely nelx E (hnd E hE)
      simp only [Function.comp_apply, this]
    rw [this]

/-- **C7** witness: the amended invariances instantiated at concrete inputs —
a two-edge permutation, and the endpoint-reversal of one non-degenerate
edge (the bottom edge of a rectangle, collinear with neither `(1, 30)` nor
the test point `(2, 0)`). -/
theorem C7_classification_invariances_witness :
    (membershiptest 2 0 [⟨1, 25, -5/2, 25, 5/2⟩, ⟨1, 15, -5/2, 25, -5/2⟩] 2 2 =
      membershiptest 2 0 [⟨1, 15, -5/2, 25, -5/2⟩, ⟨1, 25, -5/2, 25, 5/2⟩] 2 2) ∧
    (membershiptest 2 0 ([⟨1, 15, -5/2, 25, -5/2⟩].map revEdge) 2 2 =
      membershiptest 2 0 [⟨1, 15, -5/2, 25, -5/2⟩] 2 2) ∧
    ((1 * 4 + 1 + 1) ∈ voidList interiorRect44 4 4 ↔
      (1 ≤ 1 ∧ 1 ≤ 2 ∧ 1 ≤ 1 ∧ 1 ≤ 2)) :=
  ⟨C7_classification_invariances.1 2 0 2 2 _ _ (List.Perm.swap _ _ _),
   C7_classification_invariances.2.1 2 0 2 2 _ (by decide),
   C7_classification_invariances.2.2.1 1 (by decide) 1 (by decide)⟩

/-! ### C8: the load vector -/

lemma getD_set_self (l : List ℚ) (i : ℕ) (v : ℚ) (h : i < l.length) :
    (l.set i v).getD i 0 = v := by
  rw [List.getD_eq_getElem?_getD, List.getElem?_set_self h]
  rfl

lemma getD_set_ne (l : List ℚ) (i j : ℕ) (v : ℚ) (h : i ≠ j) :
    (l.set i v).getD j 0 = l.getD j 0 := by
  rw [List.getD_eq_getElem?_getD, List.getElem?_set_ne h,
    ← List.getD_eq_getElem?_getD]

lemma getD_of_length_le (l : List ℚ) (j : ℕ) (h : l.length ≤ j) :
    l.getD j 0 = 0 := by
  rw [List.getD_eq_getElem?_getD, List.getElem?_eq_none h]
  rfl

/-- All writes of one constant `v` at indices `g i`: the result reads `v`
exactly at the written in-bounds positions. -/
lemma foldl_set_const (g : ℕ → ℕ) (v : ℚ) :
    ∀ (is : List ℕ) (l : List ℚ) (j : ℕ),
      (is.foldl (fun F i => F.set (g i) v) l).getD j 0 =
        if (∃ i ∈ is, g i = j) ∧ j < l.length then v else l.getD j 0 := by
  intro is
  induction is with
  | nil => intro l j; simp
  | cons i0 t ih =>
    intro l j
    rw [List.foldl_cons, ih, List.length_set]
    by_cases hj : j < l.length
    · by_cases hext : ∃ i ∈ t, g i = j
      · obtain ⟨i1, hi1, hgi⟩ := hext
        rw [if_pos ⟨⟨i1, hi1, hgi⟩, hj⟩,
          if_pos ⟨⟨i1, List.mem_cons_of_mem _ hi1, hgi⟩, hj⟩]
      · rw [if_neg (fun hc => hext hc.1)]
        by_cases h0 : g i0 = j
        · rw [if_pos ⟨⟨i0, List.mem_cons_self _ _, h0⟩, hj⟩, ← h0,
            getD_set_self l (g i0) v (h0 ▸ hj)]
        · rw [getD_set_ne l (g i0) j v h0,
            if_neg (by
              rintro ⟨⟨i1, hi1, hgi⟩, -⟩
              rcases List.mem_cons.mp hi1 with rfl | hmem
              · exact h0 hgi
              · exact hext ⟨i1, hmem, hgi⟩)]
    · rw [if_neg (fun hc => hj hc.2), if_neg (fun hc => hj hc.2)]
      rw [getD_of_length_le _ _ (by rw [List.length_set]; omega),
        getD_of_length_le _ _ (by omega)]

lemma length_foldl_set (g : ℕ → ℕ) (v : ℚ) :
    ∀ (is : List ℕ) (l : List ℚ),
      (is.foldl (fun F i => F.set (g i) v) l).length = l.length := by
  intro is
  induction is with
  | nil => intro l; rfl
  | cons i0 t ih => intro l; rw [List.foldl_cons, ih, List.length_set]

lemma length_Fvec (nely nelx : ℕ) :
    (Fvec nely nelx).length = 2 * (nely + 1) * (nelx + 1) := by
  unfold Fvec
  rw [length_foldl_set, List.length_replicate]

/-- **C8** (confirmed). For positive `nelx`, `nely`: `F` has length
`2*(nelx+1)*(nely+1)`; for each node column `i = 0..nelx` the entry at the
1-based DOF `2 + 2*(nely+1)*i` equals `-10000/nelx`; every other entry is
zero. -/
theorem C8_load_vector (nely nelx : ℕ) (hy : 0 < nely) (hx : 0 < nelx) :
    (Fvec nely nelx).length = 2 * (nely + 1) * (nelx + 1) ∧
    (∀ i ≤ nelx,
      (Fvec nely nelx).getD (2 + 2 * (nely + 1) * i - 1) 0 =
        -(10000 / (nelx : ℚ))) ∧
    (∀ j < 2 * (nely + 1) * (nelx + 1),
      (∀ i ≤ nelx, j ≠ 2 + 2 * (nely + 1) * i - 1) →
      (Fvec nely nelx).getD j 0 = 0) := by
  refine ⟨length_Fvec nely nelx, ?_, ?_⟩
  · intro i hi
    unfold Fvec
    rw [foldl_set_const (fun i => 2 + 2 * (nely + 1) * i - 1)
      (-(10000 / (nelx : ℚ)))]
    rw [List.length_replicate]
    rw [if_pos ⟨⟨i, List.mem_range.mpr (by omega), rfl⟩, by
      have h1 : (nely + 1) * i ≤ (nely + 1) * nelx :=
        Nat.mul_le_mul_left _ hi
      have h2 : 2 * (nely + 1) * (nelx + 1) =
          2 * ((nely + 1) * nelx) + 2 * (nely + 1) := by ring
      have h3 : 2 * (nely + 1) * i = 2 * ((nely + 1) * i) := by ring
      omega⟩]
  · intro j hj hne
    unfold Fvec
    rw [foldl_set_const (fun i => 2 + 2 * (nely + 1) * i - 1)
      (-(10000 / (nelx : ℚ)))]
    rw [if_neg (by
      rintro ⟨⟨i, hi, hgi⟩, -⟩
      exact hne i (by rw [List.mem_range] at hi; omega) hgi.symm)]
    rw [List.getD_eq_getElem?_getD, List.getElem?_replicate, if_pos (by omega)]
    rfl

/-- **C8** witness at `nelx = nely = 4`: the top-of-column DOFs carry
`-2500 = -10000/4` and a non-loaded DOF reads zero. -/
theorem C8_load_vector_witness :
    (Fvec 4 4).length = 2 * (4 + 1) * (4 + 1) ∧
    (Fvec 4 4).getD (2 + 2 * (4 + 1) * 3 - 1) 0 = -(10000 / (4 : ℚ)) ∧
    (Fvec 4 4).getD 2 0 = 0 :=
  ⟨(C8_load_vector 4 4 (by decide) (by decide)).1,
   (C8_load_vector 4 4 (by decide) (by decide)).2.1 3 (by decide),
   (C8_load_vector 4 4 (by decide) (by decide)).2.2 2 (by decide) (by decide)⟩

/-! ### C10: the discarded `np.delete` loop -/

/-- **C10** (confirmed). The loop on lines 132–137 calls `np.delete(F, i-1, 0)`
without assigning the result, so it never modifies `F`: the load vector
reaching the free-DOF extraction is the original `F`, of full length
`2*(nely+1)*(nelx+1)`, for every input. -/
theorem C10_delete_loop_is_noop (Edges : List Edge) (nely nelx : ℕ) :
    FafterLoop Edges nely nelx = Fvec nely nelx ∧
    (FafterLoop Edges nely nelx).length = 2 * (nely + 1) * (nelx + 1) := by
  have hid : ∀ (is : List ℕ) (F : List ℚ),
      is.foldl (fun F i =>
        if edofContains (edofRem Edges nely nelx) i then F
        else
          let _discarded := npDeleteRow F ((i : ℤ) - 1)
          F) F = F := by
    intro is
    induction is with
    | nil => intro F; rfl
    | cons a t ih =>
      intro F
      rw [List.foldl_cons]
      have hbody : (if edofContains (edofRem Edges nely nelx) a then F
          else
            let _discarded := npDeleteRow F ((a : ℤ) - 1)
            F) = F := by
        split <;> rfl
      rw [hbody, ih]
  have h : FafterLoop Edges nely nelx = Fvec nely nelx := hid _ _
  exact ⟨h, by rw [h, length_Fvec]⟩

/-! ### C9: the displacement scatter -/

lemma freedofs_nodup (Edges : List Edge) (nely nelx : ℕ) :
    (freedofs Edges nely nelx).Nodup :=
  List.nodup_dedup _

lemma mem_freedofs_bounds (Edges : List Edge) (nely nelx : ℕ) :
    ∀ d ∈ freedofs Edges nely nelx,
      1 ≤ d ∧ d ≤ 2 * (nely + 1) * (nelx + 1) := by
  intro d hd
  unfold freedofs at hd
  rw [List.mem_dedup, (List.perm_insertionSort _ _).mem_iff,
    List.mem_filter] at hd
  obtain ⟨hkept, -⟩ := hd
  unfold alldofsKept at hkept
  rw [List.mem_filter] at hkept
  obtain ⟨hz, hne⟩ := hkept
  unfold alldofsZeroed at hz
  rw [List.mem_map] at hz
  obtain ⟨i, hi, hval⟩ := hz
  rw [List.mem_range] at hi
  simp only [decide_eq_true_eq, ne_eq] at hne
  split at hval
  · omega
  · exact absurd hval.symm hne

lemma getD_replicate_zero (n j : ℕ) :
    (List.replicate n (0 : ℚ)).getD j 0 = 0 := by
  rw [List.getD_eq_getElem?_getD, List.getElem?_replicate]
  split <;> rfl

lemma length_foldl_set_fun (h : ℕ → ℕ) (w : ℕ → ℚ) :
    ∀ (is : List ℕ) (l : List ℚ),
      (is.foldl (fun U i => U.set (h i) (w i)) l).length = l.length := by
  intro is
  induction is with
  | nil => intro l; rfl
  | cons a t ih => intro l; rw [List.foldl_cons, ih, List.length_set]

lemma foldl_set_fun_other (h : ℕ → ℕ) (w : ℕ → ℚ) :
    ∀ (n : ℕ) (l : List ℚ) (j : ℕ), (∀ i < n, h i ≠ j) →
      ((List.range n).foldl (fun U i => U.set (h i) (w i)) l).getD j 0 =
        l.getD j 0 := by
  intro n
  induction n with
  | zero => intro l j _; rfl
  | succ n ih =>
    intro l j hne
    rw [List.range_succ, List.foldl_append, List.foldl_cons, List.foldl_nil]
    rw [getD_set_ne _ _ _ _ (hne n (by omega))]
    exact ih l j (fun i hi => hne i (by omega))

lemma foldl_set_fun_at (h : ℕ → ℕ) (w : ℕ → ℚ) :
    ∀ (n : ℕ) (l : List ℚ) (i0 : ℕ), i0 < n → h i0 < l.length →
      (∀ i < n, h i = h i0 → i = i0) →
      ((List.range n).foldl (fun U i => U.set (h i) (w i)) l).getD (h i0) 0 =
        w i0 := by
  intro n
  induction n with
  | zero => intro l i0 h0; omega
  | succ n ih =>
    intro l i0 hi0 hbound huniq
    rw [List.range_succ, List.foldl_append, List.foldl_cons, List.foldl_nil]
    by_cases hlast : i0 = n
    · subst hlast
      exact getD_set_self _ _ _ (by rw [length_foldl_set_fun]; exact hbound)
    · have hne : h n ≠ h i0 := fun he => hlast ((huniq n (by omega) he).symm)
      rw [getD_set_ne _ _ _ _ hne]
      exact ih l i0 (by omega) hbound (fun i hi he => huniq i (by omega) he)

/-- **C9** (confirmed). For any solved subsystem vector `u2` of the free-DOF
count's length, the scattered full displacement vector has length
`2*(nelx+1)*(nely+1)`, carries `u2[i]` at DOF `freedofs[i]` (1-based), and is
exactly zero at every DOF outside the free set — fixed DOFs and DOFs
unreferenced by any solid element alike. -/
theorem C9_scatter_displacement (Edges : List Edge) (nely nelx : ℕ)
    (u2 : List ℚ) (hlen : u2.length = (freedofs Edges nely nelx).length) :
    (scatterU (freedofs Edges nely nelx) u2
        (2 * (nely + 1) * (nelx + 1))).length = 2 * (nely + 1) * (nelx + 1) ∧
    (∀ d < 2 * (nely + 1) * (nelx + 1), (d + 1) ∉ freedofs Edges nely nelx →
      (scatterU (freedofs Edges nely nelx) u2
        (2 * (nely + 1) * (nelx + 1))).getD d 0 = 0) ∧
    (∀ i < (freedofs Edges nely nelx).length,
      (scatterU (freedofs Edges nely nelx) u2
          (2 * (nely + 1) * (nelx + 1))).getD
            ((freedofs Edges nely nelx).getD i 1 - 1) 0 = u2.getD i 0) := by
  set fd := freedofs Edges nely nelx with hfd
  have hget : ∀ i < fd.length, fd.getD i 1 ∈ fd := by
    intro i hi
    rw [List.getD_eq_getElem?_getD, List.getElem?_eq_getElem hi]
    exact List.getElem_mem hi
  refine ⟨?_, ?_, ?_⟩
  · unfold scatterU
    rw [length_foldl_set_fun, List.length_replicate]
  · intro d hd hnot
    unfold scatterU
    rw [foldl_set_fun_other _ _ _ _ d ?_, getD_replicate_zero]
    intro i hi heq
    have hmem := hget i hi
    have hb := mem_freedofs_bounds Edges nely nelx _ hmem
    have : fd.getD i 1 = d + 1 := by omega
    rw [this] at hmem
    exact hnot hmem
  · intro i hi
    unfold scatterU
    rw [foldl_set_fun_at _ _ _ _ i hi ?_ ?_]
    · have hb := mem_freedofs_bounds Edges nely nelx _ (hget i hi)
      rw [List.length_replicate]
      omega
    · intro i' hi' heq
      have hb := mem_freedofs_bounds Edges nely nelx _ (hget i hi)
      have hb' := mem_freedofs_bounds Edges nely nelx _ (hget i' hi')
      have heq' : fd.getD i' 1 = fd.getD i 1 := by omega
      rw [List.getD_eq_getElem?_getD, List.getElem?_eq_getElem hi',
        List.getD_eq_getElem?_getD, List.getElem?_eq_getElem hi] at heq'
      exact (@List.Nodup.getElem_inj_iff _ _ (freedofs_nodup Edges nely nelx)
        i' hi' i hi).mp (by simpa using heq')

/-- **C9** witness on the 2×2 rectangle-hole input (12 free DOFs): with a
concrete `u2` of matching length, the scattered `U` has length 18, reads
`u2[0]` at the first free DOF, and is zero at the fixed DOF 2. -/
theorem C9_scatter_displacement_witness :
    (scatterU (freedofs
        [⟨1, 15, -5/2, 25, -5/2⟩, ⟨1, 25, -5/2, 25, 5/2⟩,
         ⟨1, 25, 5/2, 15, 5/2⟩, ⟨1, 15, 5/2, 15, -5/2⟩] 2 2)
      (List.replicate 12 1) (2 * (2 + 1) * (2 + 1))).getD
        ((freedofs
          [⟨1, 15, -5/2, 25, -5/2⟩, ⟨1, 25, -5/2, 25, 5/2⟩,
           ⟨1, 25, 5/2, 15, 5/2⟩, ⟨1, 15, 5/2, 15, -5/2⟩] 2 2).getD 0 1 - 1) 0 =
      (List.replicate 12 (1 : ℚ)).getD 0 0 :=
  (C9_scatter_displacement
    [⟨1, 15, -5/2, 25, -5/2⟩, ⟨1, 25, -5/2, 25, 5/2⟩,
     ⟨1, 25, 5/2, 15, 5/2⟩, ⟨1, 15, 5/2, 15, -5/2⟩] 2 2
    (List.replicate 12 1) (by decide)).2.2 0 (by decide)

/-! ### C3: the returned pair -/

lemma listMax_foldl_mem {α : Type} [LinearOrder α] :
    ∀ (t : List α) (a : α),
      t.foldl (fun m x => if m < x then x else m) a ∈ a :: t := by
  intro t
  induction t with
  | nil => intro a; exact List.mem_cons_self _ _
  | cons x t ih =>
    intro a
    rw [List.foldl_cons]
    rcases List.mem_cons.mp (ih (if a < x then x else a)) with h | h
    · rw [h]
      by_cases hax : a < x
      · rw [if_pos hax]
        exact List.mem_cons_of_mem _ (List.mem_cons_self _ _)
      · rw [if_neg hax]
        exact List.mem_cons_self _ _
    · exact List.mem_cons_of_mem _ (List.mem_cons_of_mem _ h)

lemma listMax_foldl_le {α : Type} [LinearOrder α] :
    ∀ (t : List α) (a : α) (y : α), y ∈ a :: t →
      y ≤ t.foldl (fun m x => if m < x then x else m) a := by
  intro t
  induction t with
  | nil =>
    intro a y hy
    rcases List.mem_cons.mp hy with rfl | h
    · exact le_refl _
    · exact absurd h (List.not_mem_nil _)
  | cons x t ih =>
    intro a y hy
    rw [List.foldl_cons]
    have hstep : ∀ z, z ∈ a :: x :: t → z ∈ (if a < x then x else a) :: t ∨
        z ≤ (if a < x then x else a) := by
      intro z hz
      rcases List.mem_cons.mp hz with hz1 | hz'
      · rw [hz1]
        by_cases hax : a < x
        · exact Or.inr (by rw [if_pos hax]; exact hax.le)
        · exact Or.inr (by rw [if_neg hax])
      · rcases List.mem_cons.mp hz' with hz2 | hz''
        · rw [hz2]
          by_cases hax : a < x
          · exact Or.inr (by rw [if_pos hax])
          · exact Or.inr (by rw [if_neg hax]; exact le_of_not_lt hax)
        · exact Or.inl (List.mem_cons_of_mem _ hz'')
    rcases hstep y hy with hmem | hle
    · exact ih _ y hmem
    · calc y ≤ (if a < x then x else a) := hle
        _ ≤ t.foldl (fun m x => if m < x then x else m) (if a < x then x else a) :=
          ih _ _ (List.mem_cons_self _ _)

lemma listMax_mem {α : Type} [LinearOrder α] {l : List α} {m : α}
    (h : listMax l = some m) : m ∈ l := by
  cases l with
  | nil => exact absurd h (by simp [listMax])
  | cons a t =>
    have hm : t.foldl (fun m x => if m < x then x else m) a = m := by
      rw [listMax] at h
      exact Option.some_inj.mp h
    exact hm ▸ listMax_foldl_mem t a

lemma listMax_ge {α : Type} [LinearOrder α] {l : List α} {m : α}
    (h : listMax l = some m) : ∀ y ∈ l, y ≤ m := by
  cases l with
  | nil => intro y hy; exact absurd hy (List.not_mem_nil _)
  | cons a t =>
    intro y hy
    have hm : t.foldl (fun m x => if m < x then x else m) a = m := by
      rw [listMax] at h
      exact Option.some_inj.mp h
    exact hm ▸ listMax_foldl_le t a y hy

lemma listMax_eq_none_iff {α : Type} [LinearOrder α] {l : List α} :
    listMax l = none ↔ l = [] := by
  cases l <;> simp [listMax]

/-- Membership in the flattened absolute stress array, in solid-element
terms. -/
lemma mem_stress_flat (Edges : List Edge) (nely nelx : ℕ) (U : List ℚ)
    (hy : 0 < nely) (z : ℚ) :
    (z ∈ (((edofRem Edges nely nelx).map (sigmaElem nely nelx U)).flatten.map
      qabs)) ↔
      ∃ el ∈ solidEls Edges nely nelx,
        ∃ s ∈ sigmaElem nely nelx U (edofTuple nely (edofBase nely el)),
          z = qabs s := by
  rw [edofRem_eq Edges nely nelx hy]
  simp only [List.mem_map, List.mem_flatten, List.map_map]
  constructor
  · rintro ⟨s, ⟨row, hrow, hs⟩, rfl⟩
    obtain ⟨el, hel, heq⟩ := hrow
    rw [← heq] at hs
    exact ⟨el, hel, s, hs, rfl⟩
  · rintro ⟨el, hel, s, hs, rfl⟩
    exact ⟨s, ⟨sigmaElem nely nelx U (edofTuple nely (edofBase nely el)),
      ⟨el, hel, rfl⟩, hs⟩, rfl⟩

/-- **C3** (confirmed). The analysis returns exactly the pair
`(max_stress, area)` produced by the stress-recovery stage applied to the
scattered displacement vector: `area = nelx*nely` minus the number of void
elements, and `max_stress` is the maximum, over all solid elements and both
stress components, of the componentwise absolute value of the recovered
stress. -/
theorem C3_returned_pair :
    (∀ (Edges : List Edge) (nely nelx : ℕ),
      FEM Edges nely nelx =
        if voidList Edges nely nelx = [] then none
        else if iKrem Edges nely nelx = [] then none
        else (U2 Edges nely nelx).bind fun u2 =>
          stressResult Edges nely nelx
            (scatterU (freedofs Edges nely nelx) u2
              (2 * (nely + 1) * (nelx + 1)))) ∧
    (∀ (Edges : List Edge) (nely nelx : ℕ) (U : List ℚ) (ms : ℚ) (ar : ℤ),
      0 < nely → stressResult Edges nely nelx U = some (ms, ar) →
      ar = ((nelx * nely : ℕ) : ℤ) - ((voidList Edges nely nelx).length : ℤ) ∧
      (∀ el ∈ solidEls Edges nely nelx,
        ∀ s ∈ sigmaElem nely nelx U (edofTuple nely (edofBase nely el)),
          qabs s ≤ ms) ∧
      (∃ el ∈ solidEls Edges nely nelx,
        ∃ s ∈ sigmaElem nely nelx U (edofTuple nely (edofBase nely el)),
          ms = qabs s)) := by
  refine ⟨fun Edges nely nelx => rfl, ?_⟩
  intro Edges nely nelx U ms ar hy h
  have h' : (listMax (((edofRem Edges nely nelx).map
      (sigmaElem nely nelx U)).flatten.map qabs)).map
        (fun m => (m, ((nelx * nely : ℕ) : ℤ) -
          ((voidList Edges nely nelx).length : ℤ))) = some (ms, ar) := h
  rcases hmax : listMax (((edofRem Edges nely nelx).map
      (sigmaElem nely nelx U)).flatten.map qabs) with _ | m
  · rw [hmax] at h'
    exact absurd h' (by simp)
  · rw [hmax] at h'
    have hpair := Option.some_inj.mp h'
    have hms : m = ms := congrArg Prod.fst hpair
    have har : ar = ((nelx * nely : ℕ) : ℤ) -
        ((voidList Edges nely nelx).length : ℤ) :=
      (congrArg Prod.snd hpair).symm
    subst hms
    refine ⟨har, ?_, ?_⟩
    · intro el hel s hs
      exact listMax_ge hmax _
        ((mem_stress_flat Edges nely nelx U hy _).mpr ⟨el, hel, s, hs, rfl⟩)
    · exact (mem_stress_flat Edges nely nelx U hy _).mp (listMax_mem hmax)

/-- **C3** witness on the 2×2 rectangle-hole input with the all-ones
displacement vector: the stress stage returns
`(4000/91, 3)` with `3 = 2*2 - 1` void element, and the returned maximum
dominates and is attained among the per-element absolute stresses. -/
theorem C3_returned_pair_witness :
    stressResult
      [⟨1, 15, -5/2, 25, -5/2⟩, ⟨1, 25, -5/2, 25, 5/2⟩,
       ⟨1, 25, 5/2, 15, 5/2⟩, ⟨1, 15, 5/2, 15, -5/2⟩] 2 2
      (List.replicate 18 1) = some (4000/91, 3) ∧
    ((3 : ℤ) = ((2 * 2 : ℕ) : ℤ) -
      ((voidList [⟨1, 15, -5/2, 25, -5/2⟩, ⟨1, 25, -5/2, 25, 5/2⟩,
        ⟨1, 25, 5/2, 15, 5/2⟩, ⟨1, 15, 5/2, 15, -5/2⟩] 2 2).length : ℤ)) := by
  have h : stressResult
      [⟨1, 15, -5/2, 25, -5/2⟩, ⟨1, 25, -5/2, 25, 5/2⟩,
       ⟨1, 25, 5/2, 15, 5/2⟩, ⟨1, 15, 5/2, 15, -5/2⟩] 2 2
      (List.replicate 18 1) = some (4000/91, 3) := by decide
  exact ⟨h, (C3_returned_pair.2 _ 2 2 (List.replicate 18 1) (4000/91) 3
    (by decide) h).1⟩

/-! ### C5: structure of the assembled matrix -/

lemma mem_iKblock {row : List ℕ} {x : ℕ} : x ∈ iKblock row ↔ x ∈ row := by
  unfold iKblock
  rw [List.mem_flatMap]
  exact ⟨fun ⟨i, _, hx⟩ => hx, fun hx => ⟨0, by decide, hx⟩⟩

lemma mem_jKblock {row : List ℕ} {x : ℕ} : x ∈ jKblock row ↔ x ∈ row := by
  unfold jKblock
  rw [List.mem_flatMap]
  constructor
  · rintro ⟨v, hv, hx⟩
    rw [List.mem_replicate] at hx
    exact hx.2 ▸ hv
  · intro hx
    exact ⟨x, hx, by rw [List.mem_replicate]; exact ⟨by decide, rfl⟩⟩

lemma mem_iKrem (Edges : List Edge) (nely nelx : ℕ) (hy : 0 < nely) (x : ℕ) :
    x ∈ iKrem Edges nely nelx ↔
      ∃ el ∈ solidEls Edges nely nelx,
        x ∈ edofTuple nely (edofBase nely el) := by
  rw [iKrem_eq Edges nely nelx hy, List.mem_flatMap]
  constructor
  · rintro ⟨el, hel, hx⟩
    exact ⟨el, hel, mem_iKblock.mp hx⟩
  · rintro ⟨el, hel, hx⟩
    exact ⟨el, hel, mem_iKblock.mpr hx⟩

lemma mem_jKrem (Edges : List Edge) (nely nelx : ℕ) (hy : 0 < nely) (x : ℕ) :
    x ∈ jKrem Edges nely nelx ↔
      ∃ el ∈ solidEls Edges nely nelx,
        x ∈ edofTuple nely (edofBase nely el) := by
  rw [jKrem_eq Edges nely nelx hy, List.mem_flatMap]
  constructor
  · rintro ⟨el, hel, hx⟩
    exact ⟨el, hel, mem_jKblock.mp hx⟩
  · rintro ⟨el, hel, hx⟩
    exact ⟨el, hel, mem_jKblock.mpr hx⟩

lemma listMax_congr_mem {α : Type} [LinearOrder α] {l1 l2 : List α}
    (h : ∀ x, x ∈ l1 ↔ x ∈ l2) : listMax l1 = listMax l2 := by
  rcases h1 : listMax l1 with _ | m1 <;> rcases h2 : listMax l2 with _ | m2
  · rfl
  · rw [listMax_eq_none_iff] at h1
    have := (h m2).mpr (listMax_mem h2)
    rw [h1] at this
    exact absurd this (List.not_mem_nil _)
  · rw [listMax_eq_none_iff] at h2
    have := (h m1).mp (listMax_mem h1)
    rw [h2] at this
    exact absurd this (List.not_mem_nil _)
  · have hle1 : m1 ≤ m2 := listMax_ge h2 m1 ((h m1).mp (listMax_mem h1))
    have hle2 : m2 ≤ m1 := listMax_ge h1 m2 ((h m2).mpr (listMax_mem h2))
    rw [le_antisymm hle1 hle2]

lemma mem_edofTuple_le {nely b d : ℕ} (h : d ∈ edofTuple nely b) :
    d ≤ b + (2 * nely + 3) := by
  unfold edofTuple at h
  simp only [List.mem_cons, List.not_mem_nil, or_false] at h
  rcases h with rfl | rfl | rfl | rfl | rfl | rfl | rfl | rfl <;> omega

lemma base_mem_edofTuple (nely b : ℕ) : b ∈ edofTuple nely b := by
  unfold edofTuple
  exact List.mem_cons_self _ _

lemma top_mem_edofTuple (nely b : ℕ) : b + (2 * nely + 3) ∈ edofTuple nely b := by
  unfold edofTuple
  simp

lemma edofBase_mono (nely : ℕ) : Monotone (edofBase nely) :=
  (edofBase_strictMono nely).monotone

/-- The closed form of the last element's base DOF. -/
lemma edofBase_last (nely nelx : ℕ) (hy : 0 < nely) (hx : 0 < nelx) :
    edofBase nely (nelx * nely - 1) + (2 * nely + 3) =
      2 * (nely + 1) * (nelx + 1) := by
  have h1 : (nelx - 1) * nely + nely = nelx * nely := by
    have h2 : nelx = nelx - 1 + 1 := by omega
    calc (nelx - 1) * nely + nely = (nelx - 1 + 1) * nely := by ring
      _ = nelx * nely := by rw [← h2]
  have hdecomp : nelx * nely - 1 = (nelx - 1) * nely + (nely - 1) := by omega
  obtain ⟨hmod, hdiv⟩ := mod_div_of_decomp nely (nely - 1) (nelx - 1) (by omega)
  unfold edofBase
  rw [hdecomp, hdiv]
  have h3 : (nelx - 1) * nely = nelx * nely - nely := by omega
  have h4 : 2 * (nely + 1) * (nelx + 1) =
      2 * (nelx * nely) + 2 * nelx + 2 * nely + 2 := by ring
  have h5 : nelx * nely ≥ nely := by
    calc nely = 1 * nely := (Nat.one_mul _).symm
      _ ≤ nelx * nely := Nat.mul_le_mul_right _ hx
  omega

/-- Every DOF referenced in some `edofMat` row is at most the DOF count. -/
lemma tuple_entry_le (nely nelx el d : ℕ) (hy : 0 < nely) (hx : 0 < nelx)
    (hel : el < nelx * nely) (hd : d ∈ edofTuple nely (edofBase nely el)) :
    d ≤ 2 * (nely + 1) * (nelx + 1) := by
  have hmono : edofBase nely el ≤ edofBase nely (nelx * nely - 1) :=
    edofBase_mono nely (by omega)
  calc d ≤ edofBase nely el + (2 * nely + 3) := mem_edofTuple_le hd
    _ ≤ edofBase nely (nelx * nely - 1) + (2 * nely + 3) := by omega
    _ = 2 * (nely + 1) * (nelx + 1) := edofBase_last nely nelx hy hx

lemma zip_flatMap {α β γ : Type} (f : α → List β) (g : α → List γ) :
    ∀ A : List α, (∀ a ∈ A, (f a).length = (g a).length) →
      (A.flatMap f).zip (A.flatMap g) = A.flatMap fun a => (f a).zip (g a) := by
  intro A
  induction A with
  | nil => intro _; rfl
  | cons a t ih =>
    intro hlen
    rw [List.flatMap_cons, List.flatMap_cons, List.flatMap_cons,
      List.zip_append (hlen a (List.mem_cons_self _ _)),
      ih (fun b hb => hlen b (List.mem_cons_of_mem _ hb))]

/-- The 64 triplets contributed by element `el`, in assembly order. -/
def elemTriplets (Edges : List Edge) (nely nelx el : ℕ) : List ((ℕ × ℕ) × ℚ) :=
  ((iKblock (edofTuple nely (edofBase nely el))).zip
    (jKblock (edofTuple nely (edofBase nely el)))).zip
      (KE1flat.map
        (· * ((if isVoidCell Edges nely nelx (el % nely) (el / nely) then (0 : ℚ)
          else 1) * E0)))

/-- The surviving triplet stream decomposes element by element. -/
lemma triplets_eq (Edges : List Edge) (nely nelx : ℕ) (hy : 0 < nely) :
    triplets Edges nely nelx =
      (solidEls Edges nely nelx).flatMap (elemTriplets Edges nely nelx) := by
  unfold triplets
  rw [iKrem_eq Edges nely nelx hy, jKrem_eq Edges nely nelx hy,
    sKrem_eq Edges nely nelx hy]
  rw [zip_flatMap _ _ _ (fun el _ => by
    rw [length_iKblock, length_jKblock])]
  rw [zip_flatMap _ _ _ (fun el _ => by
    rw [List.length_zip, length_iKblock, length_jKblock, length_edofTuple,
      List.length_map, length_KE1flat]
    rfl)]
  rfl

/-- Per-element contribution to entry `(r, c)` (0-based). -/
def elemK (Edges : List Edge) (nely nelx el r c : ℕ) : ℚ :=
  (((elemTriplets Edges nely nelx el).filter
    (fun t => t.1.1 == r + 1 && t.1.2 == c + 1)).map (fun t => t.2)).sum

lemma flatMap_filter_map_sum {α T : Type} (p : T → Bool) (h : T → ℚ)
    (f : α → List T) :
    ∀ A : List α,
      (((A.flatMap f).filter p).map h).sum =
        (A.map fun a => (((f a).filter p).map h).sum).sum := by
  intro A
  induction A with
  | nil => rfl
  | cons a t ih =>
    rw [List.flatMap_cons, List.filter_append, List.map_append,
      List.sum_append, ih, List.map_cons, List.sum_cons]

/-- Superposition: the assembled entry is the sum of the solid elements'
contributions. -/
lemma Kraw_superposition (Edges : List Edge) (nely nelx : ℕ) (hy : 0 < nely)
    (r c : ℕ) :
    Kraw Edges nely nelx r c =
      ((solidEls Edges nely nelx).map
        (fun el => elemK Edges nely nelx el r c)).sum := by
  unfold Kraw elemK
  rw [triplets_eq Edges nely nelx hy, flatMap_filter_map_sum]

/-- A nonzero assembled entry comes from a DOF pair co-occurring in some
solid element's 8-tuple. -/
lemma Kraw_ne_zero_co_occur (Edges : List Edge) (nely nelx : ℕ) (hy : 0 < nely)
    (r c : ℕ) (hne : Kraw Edges nely nelx r c ≠ 0) :
    ∃ el ∈ solidEls Edges nely nelx,
      (r + 1) ∈ edofTuple nely (edofBase nely el) ∧
      (c + 1) ∈ edofTuple nely (edofBase nely el) := by
  unfold Kraw at hne
  have hfil : (triplets Edges nely nelx).filter
      (fun t => t.1.1 == r + 1 && t.1.2 == c + 1) ≠ [] := by
    intro hnil
    rw [hnil] at hne
    exact hne rfl
  obtain ⟨t, ht⟩ := List.exists_mem_of_ne_nil _ hfil
  rw [List.mem_filter] at ht
  obtain ⟨hmem, hpred⟩ := ht
  rw [Bool.and_eq_true, beq_iff_eq, beq_iff_eq] at hpred
  rw [triplets_eq Edges nely nelx hy, List.mem_flatMap] at hmem
  obtain ⟨el, hel, htrip⟩ := hmem
  unfold elemTriplets at htrip
  have h1 := List.of_mem_zip htrip
  have h2 := List.of_mem_zip h1.1
  refine ⟨el, hel, ?_, ?_⟩
  · rw [← hpred.1]
    exact mem_iKblock.mp h2.1
  · rw [← hpred.2]
    exact mem_jKblock.mp h2.2

lemma mem_solidEls (Edges : List Edge) (nely nelx el : ℕ) :
    el ∈ solidEls Edges nely nelx ↔
      el < nelx * nely ∧ (el + 1) ∉ voidList Edges nely nelx := by
  unfold solidEls
  rw [List.mem_filter, List.mem_range]
  simp

lemma edofBase_step (nely a : ℕ) :
    edofBase nely a + 2 ≤ edofBase nely (a + 1) := by
  unfold edofBase
  have hdm : a / nely ≤ (a + 1) / nely := Nat.div_le_div_right (by omega)
  omega

/-- **C5** counterexample. On the 2×2 grid whose hole is exactly the
bottom-right element (3 solid elements, 12 free DOFs — not a degenerate
geometry), the `coo_matrix` shape `(np.max(iK), np.max(jK))` is `(16, 16)`,
not DOF-count × DOF-count `= (18, 18)`: the bottom-right corner node's DOFs
are referenced by no solid element, so the declared matrix size *does*
depend on the void layout. -/
theorem C5_shape_counterexample :
    voidList [⟨1, 15, -5/2, 25, -5/2⟩, ⟨1, 25, -5/2, 25, 5/2⟩,
      ⟨1, 25, 5/2, 15, 5/2⟩, ⟨1, 15, 5/2, 15, -5/2⟩] 2 2 = [4] ∧
    solidEls [⟨1, 15, -5/2, 25, -5/2⟩, ⟨1, 25, -5/2, 25, 5/2⟩,
      ⟨1, 25, 5/2, 15, 5/2⟩, ⟨1, 15, 5/2, 15, -5/2⟩] 2 2 = [0, 1, 2] ∧
    (freedofs [⟨1, 15, -5/2, 25, -5/2⟩, ⟨1, 25, -5/2, 25, 5/2⟩,
      ⟨1, 25, 5/2, 15, 5/2⟩, ⟨1, 15, 5/2, 15, -5/2⟩] 2 2).length = 12 ∧
    Kshape [⟨1, 15, -5/2, 25, -5/2⟩, ⟨1, 25, -5/2, 25, 5/2⟩,
      ⟨1, 25, 5/2, 15, 5/2⟩, ⟨1, 15, 5/2, 15, -5/2⟩] 2 2 = (16, 16) ∧
    (16, 16) ≠ (2 * (2 + 1) * (2 + 1), 2 * (2 + 1) * (2 + 1)) := by
  decide

/-- **C5** amended. For any input with at least one solid element (and
positive grid dimensions): the declared matrix is square with side
`np.max(iK)`, which equals the largest DOF referenced by any solid
element's 8-tuple — this equals the DOF count `2*(nelx+1)*(nely+1)` *iff*
the bottom-right element (1-based index `nelx*nely`) is solid. Nonzero
entries occur only at DOF pairs co-occurring in some solid element's
8-tuple, and entries accumulate by summation of the per-element triplet
contributions. -/
theorem C5_K_assembly_structure (Edges : List Edge) (nely nelx : ℕ)
    (hy : 0 < nely) (hx : 0 < nelx)
    (hsolid : solidEls Edges nely nelx ≠ []) :
    (Kshape Edges nely nelx).1 = (Kshape Edges nely nelx).2 ∧
    (∀ el ∈ solidEls Edges nely nelx, ∀ d ∈ edofTuple nely (edofBase nely el),
      d ≤ (Kshape Edges nely nelx).1) ∧
    (∃ el ∈ solidEls Edges nely nelx, ∃ d ∈ edofTuple nely (edofBase nely el),
      (Kshape Edges nely nelx).1 = d) ∧
    ((Kshape Edges nely nelx).1 = 2 * (nely + 1) * (nelx + 1) ↔
      (nelx * nely) ∉ voidList Edges nely nelx) ∧
    (∀ r c, Kraw Edges nely nelx r c ≠ 0 →
      ∃ el ∈ solidEls Edges nely nelx,
        (r + 1) ∈ edofTuple nely (edofBase nely el) ∧
        (c + 1) ∈ edofTuple nely (edofBase nely el)) ∧
    (∀ r c, Kraw Edges nely nelx r c =
      ((solidEls Edges nely nelx).map
        (fun el => elemK Edges nely nelx el r c)).sum) := by
  obtain ⟨el0, hel0⟩ := List.exists_mem_of_ne_nil _ hsolid
  have hbase : edofBase nely el0 ∈ iKrem Edges nely nelx :=
    (mem_iKrem Edges nely nelx hy _).mpr ⟨el0, hel0, base_mem_edofTuple _ _⟩
  have hiKne : iKrem Edges nely nelx ≠ [] := List.ne_nil_of_mem hbase
  rcases hmax : listMax (iKrem Edges nely nelx) with _ | m
  · exact absurd (listMax_eq_none_iff.mp hmax) hiKne
  have hKs1 : (Kshape Edges nely nelx).1 = m := by
    unfold Kshape maxE
    rw [hmax]
    rfl
  have hUB : ∀ el ∈ solidEls Edges nely nelx,
      ∀ d ∈ edofTuple nely (edofBase nely el), d ≤ m := by
    intro el hel d hd
    exact listMax_ge hmax d ((mem_iKrem Edges nely nelx hy d).mpr ⟨el, hel, hd⟩)
  have hAtt : ∃ el ∈ solidEls Edges nely nelx,
      ∃ d ∈ edofTuple nely (edofBase nely el), m = d := by
    obtain ⟨el, hel, hd⟩ :=
      (mem_iKrem Edges nely nelx hy m).mp (listMax_mem hmax)
    exact ⟨el, hel, m, hd, rfl⟩
  refine ⟨?_, ?_, ?_, ?_, Kraw_ne_zero_co_occur Edges nely nelx hy,
    Kraw_superposition Edges nely nelx hy⟩
  · unfold Kshape maxE
    rw [listMax_congr_mem (fun x =>
      (mem_iKrem Edges nely nelx hy x).trans
        ((mem_jKrem Edges nely nelx hy x).symm))]
  · intro el hel d hd
    rw [hKs1]
    exact hUB el hel d hd
  · obtain ⟨el, hel, d, hd, hmd⟩ := hAtt
    exact ⟨el, hel, d, hd, by rw [hKs1]; exact hmd⟩
  · rw [hKs1]
    constructor
    · intro h2N hvoid
      obtain ⟨el, hel, d, hd, hmd⟩ := hAtt
      obtain ⟨helN, helv⟩ := (mem_solidEls Edges nely nelx el).mp hel
      have hne : el + 1 ≠ nelx * nely := fun he => helv (he ▸ hvoid)
      have hle : el ≤ nelx * nely - 2 := by omega
      have hstep : edofBase nely (nelx * nely - 2) + 2 ≤
          edofBase nely (nelx * nely - 1) := by
        have := edofBase_step nely (nelx * nely - 2)
        have hN2 : nelx * nely - 2 + 1 = nelx * nely - 1 := by
          have h1 : 1 ≤ nelx * nely := by
            calc 1 = 1 * 1 := rfl
              _ ≤ nelx * nely := Nat.mul_le_mul hx hy
          rcases Nat.lt_or_ge (nelx * nely) 2 with hsmall | hbig
          · omega
          · omega
        rw [hN2] at this
        exact this
      have hdle : d ≤ edofBase nely el + (2 * nely + 3) := mem_edofTuple_le hd
      have hmono : edofBase nely el ≤ edofBase nely (nelx * nely - 2) :=
        edofBase_mono nely hle
      have hlast := edofBase_last nely nelx hy hx
      omega
    · intro hnv
      have hN1 : 1 ≤ nelx * nely := by
        calc 1 = 1 * 1 := rfl
          _ ≤ nelx * nely := Nat.mul_le_mul hx hy
      have hel1 : (nelx * nely - 1) ∈ solidEls Edges nely nelx := by
        rw [mem_solidEls]
        constructor
        · omega
        · have : nelx * nely - 1 + 1 = nelx * nely := by omega
          rw [this]
          exact hnv
      have htop := top_mem_edofTuple nely (edofBase nely (nelx * nely - 1))
      have h2N : edofBase nely (nelx * nely - 1) + (2 * nely + 3) ∈
          iKrem Edges nely nelx :=
        (mem_iKrem Edges nely nelx hy _).mpr ⟨_, hel1, htop⟩
      have hge : edofBase nely (nelx * nely - 1) + (2 * nely + 3) ≤ m :=
        listMax_ge hmax _ h2N
      have hub : m ≤ 2 * (nely + 1) * (nelx + 1) := by
        obtain ⟨el, hel, d, hd, hmd⟩ := hAtt
        obtain ⟨helN, -⟩ := (mem_solidEls Edges nely nelx el).mp hel
        rw [hmd]
        exact tuple_entry_le nely nelx el d hy hx helN hd
      have hlast := edofBase_last nely nelx hy hx
      omega

/-- **C5** witness on the 2×2 rectangle-hole input (bottom-right element
void): the assembled matrix is square and its side is *not* the DOF count,
since the last element index 4 is in the void list. -/
theorem C5_K_assembly_structure_witness :
    (Kshape [⟨1, 15, -5/2, 25, -5/2⟩, ⟨1, 25, -5/2, 25, 5/2⟩,
      ⟨1, 25, 5/2, 15, 5/2⟩, ⟨1, 15, 5/2, 15, -5/2⟩] 2 2).1 =
      (Kshape [⟨1, 15, -5/2, 25, -5/2⟩, ⟨1, 25, -5/2, 25, 5/2⟩,
        ⟨1, 25, 5/2, 15, 5/2⟩, ⟨1, 15, 5/2, 15, -5/2⟩] 2 2).2 ∧
    ((Kshape [⟨1, 15, -5/2, 25, -5/2⟩, ⟨1, 25, -5/2, 25, 5/2⟩,
      ⟨1, 25, 5/2, 15, 5/2⟩, ⟨1, 15, 5/2, 15, -5/2⟩] 2 2).1 =
        2 * (2 + 1) * (2 + 1) ↔
      (2 * 2) ∉ voidList [⟨1, 15, -5/2, 25, -5/2⟩, ⟨1, 25, -5/2, 25, 5/2⟩,
        ⟨1, 25, 5/2, 15, 5/2⟩, ⟨1, 15, 5/2, 15, -5/2⟩] 2 2) :=
  ⟨(C5_K_assembly_structure _ 2 2 (by decide) (by decide) (by decide)).1,
   (C5_K_assembly_structure _ 2 2 (by decide) (by decide)
     (by decide)).2.2.2.1⟩

end FEMpy
